import Mathlib

/-! librbdgo: the protocol layer of `image.go` and `rbd.go`.

A shallow embedding of the stream adapter (`Image.Read`, `Image.Write`), the
flat record decoder (`splitDataN`, `splitData`), the size-negotiated queries
(`Rbd.List`, `Image.ListChildren`, `Image.ListLockers`, `Image.ParentInfo`),
the scan callback (`goDiffCB`, `Image.DiffIterate`), the lock calls and
`Rbd.Create` with its options, all of package `rbd`, with the properties of
their loops and guards.

Modelling conventions.

* The raw primitives (`rbd_read`, `rbd_write`, `rbd_list`, ...) are external.
  One Go call only observes the sequence of answers the primitive gives, so a
  primitive is a function from the call number (0 for the first raw call of
  the Go call) to its answer.  Quantifying over all such functions covers
  every behaviour of the primitive.
* Every raw call is recorded together with its arguments, in call order, so
  that statements about what was issued can be made.
* `n` and `size` are Go `int` (64 bit).  A byte slice is far shorter than
  `2^62`, a raw answer above `len(p)` faults at the slice index that follows
  it, and so neither variable can leave the 64-bit range on a path that
  returns; both are integers here.  `lenC` (`size_t`) and `offsetC`
  (`uint64_t`) are unsigned and wrap modulo `2^64`.
* A Go `string` is a list of bytes; a nil slice and an empty slice are both
  the empty list.  Memory limits of `make` are not modelled.
* `fmt.Sprintf` and `fmt.Errorf` are kept as the format string with its
  arguments.
* A Go run-time panic (slice index or slice bounds out of range) is the
  outcome `fault`.
* The loops of `ListChildren` and `ListLockers` have no bound in the source;
  their embeddings take the number of iterations allowed (`fuel`) and end in
  `outOfFuel` when the loop would go on.
* The Go library functions `bytes.SplitN` and `bytes.Split` are embedded after
  `genSplit` of package `bytes`, for the one-byte separator the code uses.
-/

namespace Rbd

/-- A byte of a Go `[]byte`. -/
abbrev Byte := Nat

/-- Modelled from the spec: the invalid-argument code `C.EINVAL` of `<errno.h>`,
a header that is not part of the sources; 22 is its value on Linux. -/
def EINVAL : Int := 22

/-- The conversion `(C.int)(retC)` of a `C.ssize_t`: the low 32 bits, signed. -/
def toCInt (x : Int) : Int := (x + 2 ^ 31) % 2 ^ 32 - 2 ^ 31

/-- Unsigned 64-bit wrap-around (`C.size_t`, `C.uint64_t`). -/
def wrap64 (x : Int) : Nat := (x % 2 ^ 64).toNat

/-- An argument of `fmt.Sprintf` / `fmt.Errorf`. -/
inductive FmtArg where
  | str (s : String)
  | int (i : Int)
deriving DecidableEq

/-- A formatted message: the format string and its arguments, unformatted. -/
structure Msg where
  format : String
  args : List FmtArg
deriving DecidableEq

/-- The error values `Read` and `Write` return. -/
inductive GoError where
  /-- The value `io.EOF`. -/
  | eof
  /-- The value `&cError{msg, want, got}` of `errorc.go`. -/
  | cError (msg : Msg) (want : Int) (got : Int)
  /-- The value `fmt.Errorf(...)`. -/
  | errorf (msg : Msg)
deriving DecidableEq

/-- How a call of `Read` or `Write` ends. -/
inductive Outcome where
  /-- The call returns `(n, err)`; `none` is the nil error. -/
  | ret (n : Int) (err : Option GoError)
  /-- A run-time panic: slice index out of range. -/
  | fault
  /-- The loop bound of the model ran out (never the case for `Read`, `Write`). -/
  | outOfFuel
deriving DecidableEq

/-- One raw call as issued: the arguments `offsetC`, `lenC`, the index of `p`
that `bufC` points at, and the value the primitive returned. -/
structure RawCall where
  offset : Nat
  len : Nat
  bufPos : Nat
  ret : Int
deriving DecidableEq

/-- An answer of `rbd_read`: the return value and the bytes it stored at `bufC`. -/
structure RawRead where
  ret : Int
  data : List Byte
deriving DecidableEq

/-- A primitive that gives the answers `rs` in order and then behaves as `rest`. -/
def answersThen {α : Type} : List α → (Nat → α) → Nat → α
  | [], rest, k => rest k
  | a :: _, _, 0 => a
  | _ :: l, rest, k + 1 => answersThen l rest k

/-- The buffer after the primitive stored `data` from index `pos` on. -/
def storeAt (buf : List Byte) (pos : Nat) (data : List Byte) : List Byte :=
  (buf.take pos ++ data ++ buf.drop (pos + data.length)).take buf.length

/-- The sum of the values the recorded raw calls returned. -/
def retSum (cs : List RawCall) : Int := (cs.map RawCall.ret).sum

/-! ## `Image.Read` -/

/-- The local variables of `Read` at the loop head, with the buffer contents. -/
structure ReadState where
  n : Int
  size : Int
  lenC : Nat
  offsetC : Nat
  bufPos : Nat
  buf : List Byte
deriving DecidableEq

/-- A finished call of `Read`: the outcome, the buffer, the raw calls issued. -/
structure ReadRun where
  out : Outcome
  buf : List Byte
  calls : List RawCall
deriving DecidableEq

/-- Record `c` as issued before the calls of `r`. -/
def ReadRun.after (c : RawCall) (r : ReadRun) : ReadRun :=
  { r with calls := c :: r.calls }

/-- The code of `Read` after the loop (`image.go` lines 351-355). -/
def readAfterLoop (plen : Nat) (st : ReadState) : ReadRun :=
  if st.size = 0 then
    ⟨.ret st.n none, st.buf, []⟩
  else
    ⟨.ret st.n (some (.errorf ⟨"Too many bytes red, expected %d, got %d",
      [.int plen, .int (plen - st.size)]⟩)), st.buf, []⟩

/-- The loop `for size > 0` of `Read` (`image.go` lines 337-350) followed by
the code after it.  `raw 0` answers the next raw call. -/
def readLoop (name : String) (plen : Nat) : Nat → (Nat → RawRead) → ReadState → ReadRun
  | 0, _, st => if 0 < st.size then ⟨.outOfFuel, st.buf, []⟩ else readAfterLoop plen st
  | fuel + 1, raw, st =>
    if 0 < st.size then
      let retC := (raw 0).ret
      let buf := storeAt st.buf st.bufPos (raw 0).data
      let call : RawCall := ⟨st.offsetC, st.lenC, st.bufPos, retC⟩
      if retC = -EINVAL then
        ⟨.ret st.n (some .eof), buf, [call]⟩
      else if retC < 0 then
        ⟨.ret 0 (some (.cError ⟨"Cannot read from image %s (%v)", [.str name, .int retC]⟩
          0 (toCInt retC))), buf, [call]⟩
      else
        let n := st.n + retC
        if retC - 1 < 0 ∨ (plen : Int) ≤ retC - 1 then
          ⟨.fault, buf, [call]⟩
        else
          (readLoop name plen fuel (fun k => raw (k + 1))
            { n := n
              size := st.size - retC
              lenC := wrap64 (st.lenC - retC)
              offsetC := wrap64 (st.offsetC + n)
              bufPos := (retC - 1).toNat
              buf := buf }).after call
    else readAfterLoop plen st

/-- The method `Image.Read` of the image called `name` on the buffer `p`. -/
def Read (raw : Nat → RawRead) (name : String) (p : List Byte) : ReadRun :=
  if p.length = 0 then
    ⟨.fault, p, []⟩
  else
    readLoop name p.length p.length raw
      { n := 0, size := p.length, lenC := wrap64 p.length, offsetC := wrap64 0,
        bufPos := 0, buf := p }

/-! ## `Image.Write` -/

/-- The local variables of `Write` at the loop head. -/
structure WriteState where
  n : Int
  size : Int
  lenC : Nat
  offsetC : Nat
  bufPos : Nat
deriving DecidableEq

/-- A finished call of `Write`: the outcome and the raw calls issued. -/
structure WriteRun where
  out : Outcome
  calls : List RawCall
deriving DecidableEq

/-- Record `c` as issued before the calls of `r`. -/
def WriteRun.after (c : RawCall) (r : WriteRun) : WriteRun :=
  { r with calls := c :: r.calls }

/-- The code of `Write` after the loop (`image.go` lines 417-421). -/
def writeAfterLoop (st : WriteState) : WriteRun :=
  if st.n < st.size then
    ⟨.ret st.n (some (.errorf ⟨"Only %d out of %d bytes were written",
      [.int st.n, .int st.size]⟩)), []⟩
  else
    ⟨.ret st.n (some (.errorf ⟨"More bytes written %d than expected %d",
      [.int st.n, .int st.size]⟩)), []⟩

/-- The loop `for size > 0` of `Write` (`image.go` lines 399-416) followed by
the code after it.  `raw 0` answers the next raw call. -/
def writeLoop (name : String) (plen : Nat) : Nat → (Nat → Int) → WriteState → WriteRun
  | 0, _, st => if 0 < st.size then ⟨.outOfFuel, []⟩ else writeAfterLoop st
  | fuel + 1, raw, st =>
    if 0 < st.size then
      let retC := raw 0
      let call : RawCall := ⟨st.offsetC, st.lenC, st.bufPos, retC⟩
      if retC < 0 then
        if retC = -EINVAL then
          ⟨.ret st.n (some .eof), [call]⟩
        else
          ⟨.ret st.n (some (.cError ⟨"Cannot write to image %s", [.str name]⟩
            0 (toCInt retC))), [call]⟩
      else
        let n := st.n + retC
        if n = st.size then
          ⟨.ret plen none, [call]⟩
        else if retC - 1 < 0 ∨ (plen : Int) ≤ retC - 1 then
          ⟨.fault, [call]⟩
        else
          (writeLoop name plen fuel (fun k => raw (k + 1))
            { n := n
              size := st.size - retC
              lenC := wrap64 (st.lenC - retC)
              offsetC := wrap64 (st.offsetC + n)
              bufPos := (retC - 1).toNat }).after call
    else writeAfterLoop st

/-- The method `Image.Write` of the image called `name` on the buffer `p`. -/
def Write (raw : Nat → Int) (name : String) (p : List Byte) : WriteRun :=
  if p.length = 0 then
    ⟨.fault, []⟩
  else
    writeLoop name p.length p.length raw
      { n := 0, size := p.length, lenC := wrap64 p.length, offsetC := wrap64 0, bufPos := 0 }

/-! ## The flat record decoder of `rbd.go` -/

/-- A Go `string`: a sequence of bytes. -/
abbrev Str := List Byte

/-- Modelled from the spec: the insufficient-capacity code `C.ERANGE` of
`<errno.h>`, a header that is not part of the sources; 34 is its value on
Linux. -/
def ERANGE : Int := 34

/-- The end of a Go call: it returns a value, it panics, or the loop bound of
the model runs out. -/
inductive Ended (α : Type) where
  | ret (v : α)
  | fault
  | outOfFuel
deriving DecidableEq

/-- Apply `f` to the returned value. -/
def Ended.map {α β : Type} (f : α → β) : Ended α → Ended β
  | .ret v => .ret (f v)
  | .fault => .fault
  | .outOfFuel => .outOfFuel

/-- A finished negotiated call: how it ended and the raw calls it issued, each
recorded by the capacities passed to it. -/
structure Run (α β : Type) where
  out : Ended α
  calls : List β

/-- Record `c` as issued before the calls of `r`. -/
def Run.after {α β : Type} (c : β) (r : Run α β) : Run α β :=
  { r with calls := c :: r.calls }

/-- The Go library function `bytes.Index(s, sep)` for a one-byte separator,
together with the slices `s[:m]` and `s[m+1:]` that `genSplit` takes at the
index found. -/
def cutAt (sep : Byte) : List Byte → Option (List Byte × List Byte)
  | [] => none
  | b :: s =>
    if b = sep then some ([], s)
    else match cutAt sep s with
      | none => none
      | some (x, y) => some (b :: x, y)

/-- The loop of the Go library function `genSplit`: at most `k` cuts, then the
unsplit remainder. -/
def splitLoop (sep : Byte) : Nat → List Byte → List (List Byte)
  | 0, s => [s]
  | k + 1, s =>
    match cutAt sep s with
    | none => [s]
    | some (a, rest) => a :: splitLoop sep k rest

/-- The Go library function `bytes.SplitN(s, []byte{sep}, n)` (`genSplit` with a
one-byte separator): nothing for `n = 0`, all fields for `n < 0`, at most `n`
fields otherwise, the last one being the unsplit remainder. -/
def bytesSplitN (s : List Byte) (sep : Byte) (n : Int) : List (List Byte) :=
  if n = 0 then []
  else
    let n1 : Int := if n < 0 then (s.count sep : Int) + 1 else n
    let n2 : Int := if n1 > (s.length : Int) + 1 then (s.length : Int) + 1 else n1
    splitLoop sep (n2 - 1).toNat s

/-- The function `splitDataN` of `rbd.go`. -/
def splitDataN (data : List Byte) (count : Int) : List Str × Option GoError :=
  (bytesSplitN data 0 count, none)

/-- The function `splitData` of `rbd.go`; `bytes.Split` is `bytes.SplitN` with
`n = -1`, and the slice `data[:len(data)-1]` of an empty block panics. -/
def splitData (data : List Byte) : Ended (List Str × Option GoError) :=
  if data.length = 1 ∧ data[0]? = some 0 then .ret ([], none)
  else if data.length = 2 ∧ data[0]? = some 0 ∧ data[1]? = some 0 then .ret ([], none)
  else if data.length = 0 then .fault
  else .ret (bytesSplitN (data.take (data.length - 1)) 0 (-1), none)

/-- The fields joined with a zero byte. -/
def joinFields : List Str → List Byte
  | [] => []
  | [f] => f
  | f :: g :: l => f ++ 0 :: joinFields (g :: l)

/-- The encoding of a list of fields: the fields joined with a zero byte, plus
a trailing zero byte. -/
def encodeFields (l : List Str) : List Byte := joinFields l ++ [0]

/-- A buffer of `alloc` bytes from `make` after the primitive stored `data` at
its start. -/
def fillBuf (alloc : Nat) (data : List Byte) : List Byte :=
  (data ++ List.replicate (alloc - data.length) 0).take alloc

/-- The Go slice expression `buf[:hi]` on a buffer whose capacity is its
length. -/
def sliceTo (buf : List Byte) (hi : Int) : Ended (List Byte) :=
  if hi < 0 ∨ (buf.length : Int) < hi then .fault else .ret (buf.take hi.toNat)

/-! ## `Rbd.List` -/

/-- An answer of `rbd_list`: the return value, the size it left in `sizeC` and
the bytes it stored in the buffer. -/
structure ListAnswer where
  ret : Int
  size : Nat
  data : List Byte
deriving DecidableEq

/-- The loop `retry` of `Rbd.List` with `left = maxRetry - retries`, followed by
the code after it (`rbd.go` lines 198-217).  `alloc` is the length of `data`
as allocated. -/
def listLoop : Nat → (Nat → ListAnswer) → (alloc sizeC : Nat) →
    Run (List Str × Option GoError) Nat
  | 0, _, _, _ =>
    ⟨.ret ([], some (.errorf ⟨"Cannot list devices from pool, max retries (%d) reached",
      [.int 10]⟩)), []⟩
  | left + 1, raw, alloc, sizeC =>
    if alloc = 0 then ⟨.fault, []⟩
    else
      let a := raw 0
      if 0 ≤ a.ret then
        ⟨splitData (fillBuf alloc a.data), [sizeC]⟩
      else if a.ret = -ERANGE then
        (listLoop left (fun k => raw (k + 1)) a.size a.size).after sizeC
      else
        ⟨.ret ([], some (.cError ⟨"Cannot list devices from pool", []⟩ 0 a.ret)), [sizeC]⟩

/-- The method `Rbd.List` (named `RbdList`: `List` is the type of lists). -/
def RbdList (raw : Nat → ListAnswer) : Run (List Str × Option GoError) Nat :=
  listLoop 10 raw 1 1

/-! ## `Image.ListChildren` -/

/-- An answer of `rbd_list_children`: the return value, the sizes it left in
`poolsSize` and `imagesSize`, and the bytes it stored in the two buffers. -/
structure ChildrenAnswer where
  ret : Int
  poolsSize : Nat
  imagesSize : Nat
  pools : List Byte
  images : List Byte
deriving DecidableEq

/-- The loop `for i, v := range pool` of `ListChildren` (lines 481-483) from
index `i` on: the entry `{v: image[i]}` for every `v`. -/
def childRows (image : List Str) : Nat → List Str → Ended (List (Str × Str))
  | _, [] => .ret []
  | i, v :: rest =>
    match image[i]? with
    | none => .fault
    | some w => (childRows image (i + 1) rest).map (fun rows => (v, w) :: rows)

/-- The code of `ListChildren` after the loop (lines 474-484): `pools` and
`images` are the buffers, `poolsSize` and `imagesSize` the sizes the primitive
left. -/
def childrenAfterLoop (retC : Int) (pools images : List Byte) (poolsSize imagesSize : Nat) :
    Ended (List (Str × Str) × Option GoError) :=
  if retC = 0 then .ret ([], none)
  else
    match sliceTo pools ((poolsSize : Int) - 1) with
    | .ret ps =>
      match sliceTo images ((imagesSize : Int) - 1) with
      | .ret is =>
        (childRows (splitDataN is retC).1 0 (splitDataN ps retC).1).map (fun rows => (rows, none))
      | .fault => .fault
      | .outOfFuel => .outOfFuel
    | .fault => .fault
    | .outOfFuel => .outOfFuel

/-- The loop `for` of `ListChildren` (lines 459-473) followed by the code after
it.  The loop has no bound of its own: `fuel` bounds the iterations of the
model. -/
def listChildrenLoop (name : String) : Nat → (Nat → ChildrenAnswer) →
    (poolsSize imagesSize : Nat) → Run (List (Str × Str) × Option GoError) (Nat × Nat)
  | 0, _, _, _ => ⟨.outOfFuel, []⟩
  | fuel + 1, raw, poolsSize, imagesSize =>
    if poolsSize = 0 ∨ imagesSize = 0 then ⟨.fault, []⟩
    else
      let a := raw 0
      if 0 ≤ a.ret then
        ⟨childrenAfterLoop a.ret (fillBuf poolsSize a.pools) (fillBuf imagesSize a.images)
          a.poolsSize a.imagesSize, [(poolsSize, imagesSize)]⟩
      else if a.ret ≠ -ERANGE then
        ⟨.ret ([], some (.cError ⟨"Cannot list children of %s", [.str name]⟩ 0 (toCInt a.ret))),
          [(poolsSize, imagesSize)]⟩
      else
        (listChildrenLoop name fuel (fun k => raw (k + 1)) a.poolsSize a.imagesSize).after
          (poolsSize, imagesSize)

/-- The method `Image.ListChildren` of the image called `name`, run for at most
`fuel` iterations of its loop. -/
def ListChildren (fuel : Nat) (raw : Nat → ChildrenAnswer) (name : String) :
    Run (List (Str × Str) × Option GoError) (Nat × Nat) :=
  listChildrenLoop name fuel raw 512 512

/-! ## `Image.ListLockers` -/

/-- The type `Locker` of `image.go`. -/
structure Locker where
  tag : Str
  exclusive : Bool
  lockers : List (List Str)
deriving DecidableEq

/-- The capacities `tagSize`, `clientsSize`, `cookiesSize`, `addrsSize`. -/
structure LockSizes where
  tag : Nat
  clients : Nat
  cookies : Nat
  addrs : Nat
deriving DecidableEq

/-- An answer of `rbd_list_lockers`: the return value, the value it left in
`exclusive`, the sizes it left and the bytes it stored in the four buffers. -/
structure LockersAnswer where
  ret : Int
  exclusive : Int
  sizes : LockSizes
  tag : List Byte
  clients : List Byte
  cookies : List Byte
  addrs : List Byte
deriving DecidableEq

/-- The loop `for i := range client` of `ListLockers` (lines 533-535) from
index `i` on: the entry `[client[i], cookie[i], addr[i]]` for every index. -/
def lockerRows (cookie addr : List Str) : Nat → List Str → Ended (List (List Str))
  | _, [] => .ret []
  | i, c :: rest =>
    match cookie[i]?, addr[i]? with
    | some k, some a => (lockerRows cookie addr (i + 1) rest).map (fun rows => [c, k, a] :: rows)
    | _, _ => .fault

/-- The code of `ListLockers` after the loop (lines 524-540). -/
def lockersAfterLoop (a : LockersAnswer) (alloc : LockSizes) : Ended (Locker × Option GoError) :=
  if a.ret = 0 then .ret (⟨[], false, []⟩, none)
  else
    match sliceTo (fillBuf alloc.clients a.clients) ((a.sizes.clients : Int) - 1),
      sliceTo (fillBuf alloc.cookies a.cookies) ((a.sizes.cookies : Int) - 1),
      sliceTo (fillBuf alloc.addrs a.addrs) ((a.sizes.addrs : Int) - 1),
      sliceTo (fillBuf alloc.tag a.tag) ((a.sizes.tag : Int) - 1) with
    | .ret cl, .ret ck, .ret ad, .ret tg =>
      (lockerRows (splitDataN ck a.ret).1 (splitDataN ad a.ret).1 0 (splitDataN cl a.ret).1).map
        (fun rows => (⟨tg, decide (a.exclusive = 1), rows⟩, none))
    | _, _, _, _ => .fault

/-- The loop `for` of `ListLockers` (lines 500-522) followed by the code after
it.  The loop has no bound of its own: `fuel` bounds the iterations of the
model. -/
def listLockersLoop (name : String) : Nat → (Nat → LockersAnswer) → LockSizes →
    Run (Locker × Option GoError) LockSizes
  | 0, _, _ => ⟨.outOfFuel, []⟩
  | fuel + 1, raw, alloc =>
    if alloc.clients = 0 ∨ alloc.cookies = 0 ∨ alloc.addrs = 0 ∨ alloc.tag = 0 then
      ⟨.fault, []⟩
    else
      let a := raw 0
      if 0 ≤ a.ret then
        ⟨lockersAfterLoop a alloc, [alloc]⟩
      else if a.ret ≠ -ERANGE then
        ⟨.ret (⟨[], false, []⟩,
          some (.cError ⟨"Cannot list lockers of %s", [.str name]⟩ 0 (toCInt a.ret))), [alloc]⟩
      else
        (listLockersLoop name fuel (fun k => raw (k + 1)) a.sizes).after alloc

/-- The method `Image.ListLockers` of the image called `name`, run for at most
`fuel` iterations of its loop. -/
def ListLockers (fuel : Nat) (raw : Nat → LockersAnswer) (name : String) :
    Run (Locker × Option GoError) LockSizes :=
  listLockersLoop name fuel raw ⟨512, 512, 512, 512⟩

/-! ## `Image.ParentInfo` -/

/-- An answer of `rbd_get_parent_info`: the return value and the bytes it
stored in the three buffers. -/
structure ParentAnswer where
  ret : Int
  pool : List Byte
  name : List Byte
  snapName : List Byte
deriving DecidableEq

/-- The map `ParentInfo` returns: the values under `pool`, `name`, `snapname`. -/
structure ParentMap where
  pool : Str
  name : Str
  snapname : Str
deriving DecidableEq

/-- The local variables of `ParentInfo` at the loop head. -/
structure ParentState where
  size : Nat
  retC : Int
  poolBuf : List Byte
  nameBuf : List Byte
  snapNameBuf : List Byte
deriving DecidableEq

/-- The code of `ParentInfo` after the loop (lines 153-160). -/
def parentAfterLoop (name : String) (st : ParentState) : Ended (Option ParentMap × Option GoError) :=
  if st.retC ≠ 0 then
    .ret (none, some (.cError ⟨"Cannot get parent info for images %s", [.str name]⟩ 0 st.retC))
  else
    .ret (some ⟨st.poolBuf, st.nameBuf, st.snapNameBuf⟩, none)

/-- The loop `for retC == -C.ERANGE && size <= 4096` of `ParentInfo` (lines
135-152) followed by the code after it; every raw call is recorded by the
capacity passed to it. -/
def parentInfoLoop (name : String) : Nat → (Nat → ParentAnswer) → ParentState →
    Run (Option ParentMap × Option GoError) Nat
  | 0, _, st =>
    if st.retC = -ERANGE ∧ st.size ≤ 4096 then ⟨.outOfFuel, []⟩
    else ⟨parentAfterLoop name st, []⟩
  | fuel + 1, raw, st =>
    if st.retC = -ERANGE ∧ st.size ≤ 4096 then
      if st.size = 0 then ⟨.fault, []⟩
      else
        let a := raw 0
        (parentInfoLoop name fuel (fun k => raw (k + 1))
          { size := if a.ret = -ERANGE then st.size * 2 else st.size
            retC := a.ret
            poolBuf := fillBuf st.size a.pool
            nameBuf := fillBuf st.size a.name
            snapNameBuf := fillBuf st.size a.snapName }).after st.size
    else ⟨parentAfterLoop name st, []⟩

/-- The method `Image.ParentInfo` of the image called `name`. -/
def ParentInfo (raw : Nat → ParentAnswer) (name : String) :
    Run (Option ParentMap × Option GoError) Nat :=
  parentInfoLoop name 10 raw ⟨8, -ERANGE, [], [], []⟩

/-! ## `goDiffCB` and `Image.DiffIterate` -/

/-- The conversion `int(x)` of a 64-bit unsigned value (`C.uint64_t`,
`C.size_t`): values from `2^63` on come out negative. -/
def toInt64 (x : Int) : Int := (x + 2 ^ 63) % 2 ^ 64 - 2 ^ 63

/-- An extent as the scan primitive reports it to its callback: a
`uint64_t` offset, a `size_t` length and the `int` flag `exists`. -/
structure Extent where
  offset : Nat
  length : Nat
  exist : Int
deriving DecidableEq

/-- The type `DiffHandler`: `func(offset, length, exists int, d interface{}) int`.
`δ` is the type of the context value `d`; `σ` is the memory the handler may
change (in the test, the array `d` points to). -/
abbrev DiffHandler (δ σ : Type) := Int → Int → Int → δ → σ → Int × σ

/-- One call of `goDiffCB`: the extent reported, the arguments the handler
received, the value it returned and the value handed back to the primitive. -/
structure Invocation (δ : Type) where
  extent : Extent
  offset : Int
  length : Int
  exist : Int
  d : δ
  handlerRet : Int
  back : Int
deriving DecidableEq

/-- The exported callback `goDiffCB` on the passer `{f, d}` (lines 609-612):
the value handed back, the memory after the handler ran, and the record of the
call. -/
def goDiffCB {δ σ : Type} (f : DiffHandler δ σ) (d : δ) (e : Extent) (s : σ) :
    Int × σ × Invocation δ :=
  let r := f (toInt64 e.offset) (toInt64 e.length) e.exist d s
  (toCInt r.1, r.2,
    ⟨e, toInt64 e.offset, toInt64 e.length, e.exist, d, r.1, toCInt r.1⟩)

/-- Modelled from the spec: the scan primitive `rbd_diff_iterate`, which is not
part of the sources.  It invokes the callback once per extent it discovers, in
order and within the one blocking call; whether a value handed back ends the
scan is its own policy `stop`.  The result is the memory after the scan, the
values handed back and the records of the callbacks. -/
def diffScan {δ σ : Type} (stop : Int → Bool) (cb : Extent → σ → Int × σ × Invocation δ) :
    List Extent → σ → σ × List Int × List (Invocation δ)
  | [], s => (s, [], [])
  | e :: es, s =>
    let r := cb e s
    if stop r.1 then (r.2.1, [r.1], [r.2.2])
    else
      let t := diffScan stop cb es r.2.1
      (t.1, r.1 :: t.2.1, r.2.2 :: t.2.2)

/-- A finished call of `DiffIterate`: the error returned, the memory of the
handler, and the records of the callbacks in the order they happened. -/
structure DiffRun (δ σ : Type) where
  err : Option GoError
  mem : σ
  invocations : List (Invocation δ)

/-- The method `Image.DiffIterate` (lines 618-633).  The primitive is given by
the extents it discovers in the range, its policy `stop`, and the status
`status` it returns after the values handed back to it. -/
def DiffIterate {δ σ : Type} (extents : List Extent) (stop : Int → Bool)
    (status : List Int → Int) (fromSnapshot : String) (f : DiffHandler δ σ) (d : δ) (s : σ) :
    DiffRun δ σ :=
  let t := diffScan stop (goDiffCB f d) extents s
  let retC := status t.2.1
  if retC < 0 then
    ⟨some (.cError ⟨"Cannot generate diff from snapshot %s", [.str fromSnapshot]⟩ 0 retC),
      t.1, t.2.2⟩
  else ⟨none, t.1, t.2.2⟩

/-! ## The lock calls of `image.go` -/

/-- Modelled from the spec: the code the lock primitive returns for a rejected
acquisition (`EBUSY` of `<errno.h>`, 16 on Linux); the header and the
primitive are not part of the sources. -/
def EBUSY : Int := 16

/-- Modelled from the spec: the code the lock primitive returns when no
matching lock exists (`ENOENT` of `<errno.h>`, 2 on Linux). -/
def ENOENT : Int := 2

/-- Modelled from the spec: the lock state of a volume (section 4.5),
`Unlocked`, `ExclusiveHeld(cookie)` or `SharedHeld(tag, holders)`; a holder is
a client identity with its cookie. -/
inductive LockState where
  | unlocked
  | exclusiveHeld (client cookie : Str)
  | sharedHeld (tag : Str) (holders : List (Str × Str))
deriving DecidableEq

/-- Modelled from the spec: `acquireExclusive(cookie)` by the session `me`
fails if any lock (exclusive or shared) already exists. -/
def rbd_lock_exclusive (me cookie : Str) : LockState → Int × LockState
  | .unlocked => (0, .exclusiveHeld me cookie)
  | s => (-EBUSY, s)

/-- Modelled from the spec: `acquireShared(cookie, tag)` by the session `me`
fails if an exclusive lock exists, fails if a shared lock exists under a
different tag, and succeeds (adding a holder) if no lock exists or the
existing shared tag matches. -/
def rbd_lock_shared (me cookie tag : Str) : LockState → Int × LockState
  | .unlocked => (0, .sharedHeld tag [(me, cookie)])
  | .exclusiveHeld c k => (-EBUSY, .exclusiveHeld c k)
  | .sharedHeld t hs =>
    if t = tag then (0, .sharedHeld t (hs ++ [(me, cookie)])) else (-EBUSY, .sharedHeld t hs)

/-- Modelled from the spec: the state after the holder `(client, cookie)` is
removed from a locked volume in which it is a holder. -/
def removeHolder (client cookie : Str) : LockState → Option LockState
  | .unlocked => none
  | .exclusiveHeld c k => if c = client ∧ k = cookie then some .unlocked else none
  | .sharedHeld t hs =>
    if (client, cookie) ∈ hs then
      (if hs.erase (client, cookie) = [] then some .unlocked
       else some (.sharedHeld t (hs.erase (client, cookie))))
    else none

/-- Modelled from the spec: `release(cookie)` by the session `me` releases a
lock owned by that session and fails if no lock with that cookie exists. -/
def rbd_unlock (me cookie : Str) (s : LockState) : Int × LockState :=
  match removeHolder me cookie s with
  | some t => (0, t)
  | none => (-ENOENT, s)

/-- Modelled from the spec: `breakLock(clientId, cookie)` forcibly releases the
lock of the session `client` and fails if no matching lock exists. -/
def rbd_break_lock (client cookie : Str) (s : LockState) : Int × LockState :=
  match removeHolder client cookie s with
  | some t => (0, t)
  | none => (-ENOENT, s)

/-- The shape shared by the four lock methods: the primitive is called and a
negative value becomes a `cError` with the method's message. -/
def lockResult (format name : String) (r : Int × LockState) : Option GoError × LockState :=
  if r.1 < 0 then (some (.cError ⟨format, [.str name]⟩ 0 r.1), r.2) else (none, r.2)

/-- The method `Image.LockExclusive` (lines 544-552) called by the session `me`. -/
def LockExclusive (name : String) (me cookie : Str) (s : LockState) :
    Option GoError × LockState :=
  lockResult "Cannot acquire exclusive lock on image %s" name (rbd_lock_exclusive me cookie s)

/-- The method `Image.LockShared` (lines 555-565) called by the session `me`. -/
def LockShared (name : String) (me cookie tag : Str) (s : LockState) :
    Option GoError × LockState :=
  lockResult "Cannot acquire shared lock on image %s" name (rbd_lock_shared me cookie tag s)

/-- The method `Image.Unlock` (lines 568-576) called by the session `me`. -/
def Unlock (name : String) (me cookie : Str) (s : LockState) : Option GoError × LockState :=
  lockResult "Cannot unlock image %s" name (rbd_unlock me cookie s)

/-- The method `Image.BreakLock` (lines 579-589). -/
def BreakLock (name : String) (client cookie : Str) (s : LockState) :
    Option GoError × LockState :=
  lockResult "Cannot unlock image %s" name (rbd_break_lock client cookie s)

/-- A call of one of the four lock methods on a volume, by some session. -/
inductive LockCall where
  | lockExclusive (me cookie : Str)
  | lockShared (me cookie tag : Str)
  | unlock (me cookie : Str)
  | breakLock (client cookie : Str)
deriving DecidableEq

/-- The call `c` on the image called `name` in the lock state `s`. -/
def LockCall.perform (name : String) : LockCall → LockState → Option GoError × LockState
  | .lockExclusive me cookie, s => LockExclusive name me cookie s
  | .lockShared me cookie tag, s => LockShared name me cookie tag s
  | .unlock me cookie, s => Unlock name me cookie s
  | .breakLock client cookie, s => BreakLock name client cookie s

/-- The call is an acquisition. -/
def LockCall.acquires : LockCall → Bool
  | .lockExclusive _ _ => true
  | .lockShared _ _ _ => true
  | _ => false

/-- The lock state after the calls `cs` in order. -/
def stateAfter (name : String) : List LockCall → LockState → LockState
  | [], s => s
  | c :: cs, s => stateAfter name cs (c.perform name s).2

/-- No `Unlock` or `BreakLock` among the calls `cs`, made in order from the
state `s`, succeeded: the holder was not removed. -/
def noRemoval (name : String) : List LockCall → LockState → Prop
  | [], _ => True
  | c :: cs, s =>
    (c.acquires = false → (c.perform name s).1 ≠ none) ∧ noRemoval name cs (c.perform name s).2

/-! ## Capacities in force after insufficient-capacity answers -/

/-- The capacity `Rbd.List` allocates after the answers `pre`, starting from
`s`: the size the last of them left. -/
def lastSize : List ListAnswer → Nat → Nat
  | [], s => s
  | a :: l, _ => lastSize l a.size

/-- The capacities `ListChildren` allocates after the answers `pre`, starting
from `s`: the sizes the last of them left. -/
def lastChildSizes : List ChildrenAnswer → Nat × Nat → Nat × Nat
  | [], s => s
  | a :: l, _ => lastChildSizes l (a.poolsSize, a.imagesSize)

/-- The capacities `ListLockers` allocates after the answers `pre`, starting
from `s`: the sizes the last of them left. -/
def lastLockSizes : List LockersAnswer → LockSizes → LockSizes
  | [], s => s
  | a :: l, _ => lastLockSizes l a.sizes

/-! ## `Rbd.Create` and its options -/

/-- Modelled from the spec: the feature bit `C.RBD_FEATURE_LAYERING` of
`<rbd/librbd.h>`, a header that is not part of the sources; `image.go` gives
its Go equivalent `LayeringMask = 1 << 0`. -/
def RBD_FEATURE_LAYERING : Nat := 1

/-- Modelled from the spec: the feature bit `C.RBD_FEATURE_STRIPINGV2` of
`<rbd/librbd.h>`, a header that is not part of the sources; `image.go` gives
its Go equivalent `Stripingv2Mask = 1 << 1`. -/
def RBD_FEATURE_STRIPINGV2 : Nat := 2

/-- The type `Config` of `rbd.go`. -/
structure Config where
  oldFormat : Bool
  features : Nat
  orderC : Int
  stripeUnit : Nat
  stripeCount : Nat
deriving DecidableEq

/-- The method `setOldFormat`. -/
def Config.setOldFormat (c : Config) : Config := { c with oldFormat := true }

/-- The method `setFeature`: `c.features = c.features | mask`. -/
def Config.setFeature (c : Config) (mask : Nat) : Config :=
  { c with features := c.features ||| mask }

/-- An option of `Create`, a `func(*Config) error`: its effect on the
configuration (the error every option returns is nil, and `Create` drops it). -/
abbrev CreateOption := Config → Config

/-- The option `OldFormat()`. -/
def OldFormat : CreateOption := fun c => c.setOldFormat

/-- The option `Layering()`. -/
def Layering : CreateOption := fun c => c.setFeature RBD_FEATURE_LAYERING

/-- The option `Stripingv2()`. -/
def Stripingv2 : CreateOption := fun c => c.setFeature RBD_FEATURE_STRIPINGV2

/-- A call of a create primitive with its arguments: `rbd_create(io, name,
size, &order)` or `rbd_create3(io, name, size, features, &order, stripe_unit,
stripe_count)`. -/
inductive CreateCall where
  | rbd_create (name : String) (size : Nat) (order : Int)
  | rbd_create3 (name : String) (size : Nat) (features : Nat) (order : Int)
      (stripeUnit stripeCount : Nat)
deriving DecidableEq

/-- A finished call of `Create`: the error returned and the primitive calls
issued. -/
structure CreateRun where
  err : Option GoError
  calls : List CreateCall
deriving DecidableEq

/-- The end of `Create` (lines 121-124) after the primitive call `call`. -/
def createResult (prim : CreateCall → Int) (poolName name : String) (call : CreateCall) :
    CreateRun :=
  if prim call < 0 then
    ⟨some (.cError ⟨"Cannot create device %s in pool %s", [.str name, .str poolName]⟩ 0
      (prim call)), [call]⟩
  else ⟨none, [call]⟩

/-- The method `Rbd.Create` (lines 84-125) on the pool `poolName`; `prim` gives
the value the primitive returns for a call. -/
def Create (prim : CreateCall → Int) (poolName name : String) (size : Nat)
    (options : List CreateOption) : CreateRun :=
  let config := options.foldl (fun c option => option c)
    { oldFormat := false, orderC := 22, stripeCount := 0, stripeUnit := 0, features := 0 }
  if config.oldFormat then
    if config.features ≠ 0 ∨ config.stripeUnit ≠ 0 ∨ config.stripeCount ≠ 0 then
      ⟨some (.errorf
        ⟨"Format image 1 does not support feature, masks or non-default striping", []⟩), []⟩
    else
      createResult prim poolName name (.rbd_create name size config.orderC)
  else
    createResult prim poolName name
      (.rbd_create3 name size config.features config.orderC config.stripeUnit
        config.stripeCount)

/-- The three options `rbd.go` provides, by name. -/
inductive OptionName where
  | oldFormat
  | layering
  | stripingv2
deriving DecidableEq

/-- The option a name stands for. -/
def OptionName.option : OptionName → CreateOption
  | .oldFormat => OldFormat
  | .layering => Layering
  | .stripingv2 => Stripingv2

/-- The feature mask an option requests (none for `OldFormat()`). -/
def OptionName.mask : OptionName → Nat
  | .oldFormat => 0
  | .layering => RBD_FEATURE_LAYERING
  | .stripingv2 => RBD_FEATURE_STRIPINGV2

/-- The bitwise OR of the feature masks the options request. -/
def requestedFeatures (opts : List OptionName) : Nat :=
  opts.foldl (fun m o => m ||| o.mask) 0

/-! ## Lemmas on the loops -/

theorem answersThen_zero {α : Type} (a : α) (l : List α) (rest : Nat → α) :
    answersThen (a :: l) rest 0 = a := rfl

theorem answersThen_shift {α : Type} (a : α) (l : List α) (rest : Nat → α) :
    (fun k => answersThen (a :: l) rest (k + 1)) = answersThen l rest := rfl

theorem retSum_nil : retSum [] = 0 := rfl

theorem retSum_cons (c : RawCall) (cs : List RawCall) :
    retSum (c :: cs) = c.ret + retSum cs := by
  simp [retSum]

theorem readRun_after_out (c : RawCall) (r : ReadRun) : (r.after c).out = r.out := rfl

theorem readRun_after_calls (c : RawCall) (r : ReadRun) :
    (r.after c).calls = c :: r.calls := rfl

theorem writeRun_after_out (c : RawCall) (r : WriteRun) : (r.after c).out = r.out := rfl

theorem writeRun_after_calls (c : RawCall) (r : WriteRun) :
    (r.after c).calls = c :: r.calls := rfl

theorem readAfterLoop_calls (plen : Nat) (st : ReadState) :
    (readAfterLoop plen st).calls = [] := by
  unfold readAfterLoop
  split <;> rfl

theorem writeAfterLoop_calls (st : WriteState) : (writeAfterLoop st).calls = [] := by
  unfold writeAfterLoop
  split <;> rfl

theorem sum_ret_nonneg (rs : List RawRead) (h : ∀ r ∈ rs, 0 < r.ret) :
    0 ≤ (rs.map RawRead.ret).sum := by
  apply List.sum_nonneg
  intro x hx
  obtain ⟨y, hy, rfl⟩ := List.mem_map.mp hx
  exact le_of_lt (h y hy)

/-- The `Read` loop ends within as many iterations as the size still to fill:
with that much fuel the model never runs out. -/
theorem readLoop_ends (name : String) (plen : Nat) :
    ∀ (fuel : Nat) (raw : Nat → RawRead) (st : ReadState),
      st.size ≤ fuel → (readLoop name plen fuel raw st).out ≠ .outOfFuel := by
  intro fuel
  induction fuel with
  | zero =>
    intro raw st hle
    have h1 : ¬ 0 < st.size := by simpa using hle
    simp only [readLoop, if_neg h1, readAfterLoop]
    split_ifs <;> simp
  | succ fuel ih =>
    intro raw st hle
    simp only [readLoop, readAfterLoop]
    split_ifs with h1 h2 h3 h4 h5
    all_goals try simp
    rw [readRun_after_out]
    apply ih
    simp only
    push_cast at hle
    omega

/-- The `Write` loop ends within as many iterations as the size still to
write: with that much fuel the model never runs out. -/
theorem writeLoop_ends (name : String) (plen : Nat) :
    ∀ (fuel : Nat) (raw : Nat → Int) (st : WriteState),
      st.size ≤ fuel → (writeLoop name plen fuel raw st).out ≠ .outOfFuel := by
  intro fuel
  induction fuel with
  | zero =>
    intro raw st hle
    have h1 : ¬ 0 < st.size := by simpa using hle
    simp only [writeLoop, if_neg h1, writeAfterLoop]
    split_ifs <;> simp
  | succ fuel ih =>
    intro raw st hle
    simp only [writeLoop, writeAfterLoop]
    split_ifs with h1 h2 h3 h4 h5 h6
    all_goals try simp
    rw [writeRun_after_out]
    apply ih
    simp only
    push_cast at hle
    omega

/-- A `Read` loop that returns a nil error returns the bytes counted so far
plus the size that was still to fill. -/
theorem readLoop_nil (name : String) (plen : Nat) :
    ∀ (fuel : Nat) (raw : Nat → RawRead) (st : ReadState) (n : Int),
      (readLoop name plen fuel raw st).out = .ret n none → n = st.n + st.size := by
  intro fuel
  induction fuel with
  | zero =>
    intro raw st n h
    simp only [readLoop, readAfterLoop] at h
    split_ifs at h with h1 h2
    all_goals simp at h
    omega
  | succ fuel ih =>
    intro raw st n h
    simp only [readLoop, readAfterLoop] at h
    split_ifs at h with h1 h2 h3 h4 h5
    all_goals simp only [readRun_after_out] at h
    all_goals try (simp at h; done)
    · have := ih _ _ _ h
      simp only at this
      omega
    · simp at h
      omega

/-- A negative answer recorded by the `Read` loop is the last call of the
loop, and the outcome is the one of lines 339-344. -/
theorem readLoop_negative_call (name : String) (plen : Nat) :
    ∀ (fuel : Nat) (raw : Nat → RawRead) (st : ReadState) (pre post : List RawCall)
      (c : RawCall),
      (readLoop name plen fuel raw st).calls = pre ++ c :: post → c.ret < 0 →
        post = [] ∧
        (c.ret = -EINVAL →
          (readLoop name plen fuel raw st).out = .ret (st.n + retSum pre) (some .eof)) ∧
        (c.ret ≠ -EINVAL →
          (readLoop name plen fuel raw st).out =
            .ret 0 (some (.cError ⟨"Cannot read from image %s (%v)", [.str name, .int c.ret]⟩
              0 (toCInt c.ret)))) := by
  intro fuel
  induction fuel with
  | zero =>
    intro raw st pre post c h hneg
    simp only [readLoop] at h
    split_ifs at h
    · simp at h
    · simp [readAfterLoop_calls] at h
  | succ fuel ih =>
    intro raw st pre post c h hneg
    simp only [readLoop] at h ⊢
    split_ifs at h ⊢ with h1 h2 h3 h4
    · -- the answer is -EINVAL
      cases pre with
      | nil =>
        simp only [List.nil_append, List.cons.injEq] at h
        obtain ⟨hc, hpost⟩ := h
        subst hc
        exact ⟨hpost.symm, fun _ => by simp [retSum_nil], fun hne => absurd h2 hne⟩
      | cons a pre => simp at h
    · -- another negative answer
      cases pre with
      | nil =>
        simp only [List.nil_append, List.cons.injEq] at h
        obtain ⟨hc, hpost⟩ := h
        subst hc
        exact ⟨hpost.symm, fun he => absurd he h2, fun _ => rfl⟩
      | cons a pre => simp at h
    · -- the slice index faults
      cases pre with
      | nil =>
        simp only [List.nil_append, List.cons.injEq] at h
        obtain ⟨hc, _⟩ := h
        subst hc
        exact absurd hneg h3
      | cons a pre => simp at h
    · -- the loop goes on
      rw [readRun_after_calls] at h
      cases pre with
      | nil =>
        simp only [List.nil_append, List.cons.injEq] at h
        obtain ⟨hc, _⟩ := h
        subst hc
        exact absurd hneg h3
      | cons a pre =>
        simp only [List.cons_append, List.cons.injEq] at h
        obtain ⟨ha, h⟩ := h
        subst ha
        obtain ⟨hp, he, hn⟩ := ih _ _ _ _ _ h hneg
        refine ⟨hp, fun hc => ?_, fun hc => ?_⟩
        · rw [readRun_after_out, he hc, retSum_cons]
          simp only [add_assoc]
        · rw [readRun_after_out, hn hc]
    · simp [readAfterLoop_calls] at h

/-- Positive answers that fill exactly the remaining size end the `Read` loop
with a nil error. -/
theorem readLoop_fill (name : String) (plen : Nat) (rest : Nat → RawRead) :
    ∀ (rs : List RawRead) (fuel : Nat) (st : ReadState),
      (∀ r ∈ rs, 0 < r.ret) → (rs.map RawRead.ret).sum = st.size →
      st.size ≤ plen → st.size ≤ fuel →
        (readLoop name plen fuel (answersThen rs rest) st).out
          = .ret (st.n + (rs.map RawRead.ret).sum) none := by
  intro rs
  induction rs with
  | nil =>
    intro fuel st _ hsum _ _
    simp only [List.map_nil, List.sum_nil] at hsum
    cases fuel <;> simp [readLoop, readAfterLoop, ← hsum]
  | cons r rs ih =>
    intro fuel st hpos hsum hle hfuel
    have hr : 0 < r.ret := hpos r (List.mem_cons_self _ _)
    have hrs : ∀ x ∈ rs, 0 < x.ret := fun x hx => hpos x (List.mem_cons_of_mem _ hx)
    have hnn := sum_ret_nonneg rs hrs
    simp only [List.map_cons, List.sum_cons] at hsum ⊢
    cases fuel with
    | zero => omega
    | succ fuel =>
      have h1 : 0 < st.size := by omega
      have h2 : ¬ r.ret = -EINVAL := by simp only [EINVAL]; omega
      have h3 : ¬ r.ret < 0 := by omega
      have h4 : ¬ (r.ret - 1 < 0 ∨ (plen : Int) ≤ r.ret - 1) := by omega
      simp only [readLoop, answersThen_zero, answersThen_shift, if_pos h1, if_neg h2, if_neg h3,
        if_neg h4, readRun_after_out]
      rw [ih fuel _ hrs (by simp only; omega) (by simp only; omega) (by simp only; omega)]
      simp only [add_assoc]

/-- Positive answers that leave part of the size unfilled, followed by the
answer `-EINVAL`, end the `Read` loop with the bytes counted and `io.EOF`. -/
theorem readLoop_eof (name : String) (plen : Nat) (rest : Nat → RawRead) (d : List Byte) :
    ∀ (rs : List RawRead) (fuel : Nat) (st : ReadState),
      (∀ r ∈ rs, 0 < r.ret) → (rs.map RawRead.ret).sum < st.size →
      st.size ≤ plen → st.size ≤ fuel →
        (readLoop name plen fuel (answersThen (rs ++ [⟨-EINVAL, d⟩]) rest) st).out
          = .ret (st.n + (rs.map RawRead.ret).sum) (some .eof) := by
  intro rs
  induction rs with
  | nil =>
    intro fuel st _ hsum _ hfuel
    simp only [List.map_nil, List.sum_nil] at hsum
    cases fuel with
    | zero => omega
    | succ fuel =>
      simp [readLoop, answersThen_zero, hsum]
  | cons r rs ih =>
    intro fuel st hpos hsum hle hfuel
    have hr : 0 < r.ret := hpos r (List.mem_cons_self _ _)
    have hrs : ∀ x ∈ rs, 0 < x.ret := fun x hx => hpos x (List.mem_cons_of_mem _ hx)
    have hnn := sum_ret_nonneg rs hrs
    simp only [List.map_cons, List.sum_cons] at hsum ⊢
    cases fuel with
    | zero => omega
    | succ fuel =>
      have h1 : 0 < st.size := by omega
      have h2 : ¬ r.ret = -EINVAL := by simp only [EINVAL]; omega
      have h3 : ¬ r.ret < 0 := by omega
      have h4 : ¬ (r.ret - 1 < 0 ∨ (plen : Int) ≤ r.ret - 1) := by omega
      simp only [List.cons_append, readLoop, answersThen_zero, answersThen_shift, if_pos h1,
        if_neg h2, if_neg h3, if_neg h4, readRun_after_out]
      rw [ih fuel _ hrs (by simp only; omega) (by simp only; omega) (by simp only; omega)]
      simp only [add_assoc]

/-- The answer `-EINVAL` recorded by the `Write` loop is the last call of the
loop, and the loop returns the bytes counted before it with `io.EOF`. -/
theorem writeLoop_einval_call (name : String) (plen : Nat) :
    ∀ (fuel : Nat) (raw : Nat → Int) (st : WriteState) (pre post : List RawCall)
      (c : RawCall),
      (writeLoop name plen fuel raw st).calls = pre ++ c :: post → c.ret = -EINVAL →
        post = [] ∧
        (writeLoop name plen fuel raw st).out = .ret (st.n + retSum pre) (some .eof) := by
  intro fuel
  induction fuel with
  | zero =>
    intro raw st pre post c h hc
    simp only [writeLoop] at h
    split_ifs at h
    · simp at h
    · simp [writeAfterLoop_calls] at h
  | succ fuel ih =>
    intro raw st pre post c h hc
    have hneg : c.ret < 0 := by rw [hc]; decide
    simp only [writeLoop] at h ⊢
    split_ifs at h ⊢ with h1 h2 h3 h4 h5
    · -- the answer is -EINVAL
      cases pre with
      | nil =>
        simp only [List.nil_append, List.cons.injEq] at h
        exact ⟨h.2.symm, by simp [retSum_nil]⟩
      | cons a pre => simp at h
    · -- another negative answer
      cases pre with
      | nil =>
        simp only [List.nil_append, List.cons.injEq] at h
        obtain ⟨hcall, _⟩ := h
        subst hcall
        exact absurd hc h3
      | cons a pre => simp at h
    · -- the whole size is counted
      cases pre with
      | nil =>
        simp only [List.nil_append, List.cons.injEq] at h
        obtain ⟨hcall, _⟩ := h
        subst hcall
        exact absurd hneg h2
      | cons a pre => simp at h
    · -- the slice index faults
      cases pre with
      | nil =>
        simp only [List.nil_append, List.cons.injEq] at h
        obtain ⟨hcall, _⟩ := h
        subst hcall
        exact absurd hneg h2
      | cons a pre => simp at h
    · -- the loop goes on
      rw [writeRun_after_calls] at h
      cases pre with
      | nil =>
        simp only [List.nil_append, List.cons.injEq] at h
        obtain ⟨hcall, _⟩ := h
        subst hcall
        exact absurd hneg h2
      | cons a pre =>
        simp only [List.cons_append, List.cons.injEq] at h
        obtain ⟨ha, h⟩ := h
        subst ha
        obtain ⟨hp, he⟩ := ih _ _ _ _ _ h hc
        refine ⟨hp, ?_⟩
        rw [writeRun_after_out, he, retSum_cons]
        simp only [add_assoc]
    · simp [writeAfterLoop_calls] at h

/-! ## The claims on `Write` and `Read` -/

/-- Claim C1: a nil error from `Write` should mean that the raw writes of the
call total `len(p)`.  On a 3-byte buffer with raw writes answering 1 and 1 the
code returns `(3, nil)` after two raw writes that total 2 bytes: line 408
compares the running total `n` with the size still to write. -/
theorem write_nil_after_short_total :
    Write (answersThen [1, 1] (fun _ => -EINVAL)) "img" [1, 2, 3]
        = ⟨.ret 3 none, [⟨0, 3, 0, 1⟩, ⟨1, 2, 0, 1⟩]⟩ ∧
      retSum (Write (answersThen [1, 1] (fun _ => -EINVAL)) "img" [1, 2, 3]).calls = 2 := by
  decide

/-- Claim C2: raw writes of 3 and then 1 byte on a 4-byte buffer are positive,
within the length requested of each (4, then 1) and total `len(p)`, yet
`Write` returns 4 with the error of line 421 instead of `(4, nil)`. -/
theorem write_split_transfer_is_error :
    Write (answersThen [3, 1] (fun _ => -EINVAL)) "img" [1, 2, 3, 4]
      = ⟨.ret 4 (some (.errorf ⟨"More bytes written %d than expected %d", [.int 4, .int 0]⟩)),
          [⟨0, 4, 0, 3⟩, ⟨3, 1, 2, 1⟩]⟩ := by
  decide

/-- Claim C3, as stated, fails: raw reads answering 2 and 2 on a 3-byte buffer
are error-free and total 4, at least `len(p)`, and `Read` returns 4 with the
error of line 355. -/
theorem read_overfull_is_error :
    (Read (answersThen [⟨2, [10, 11]⟩, ⟨2, [12, 13]⟩] (fun _ => ⟨-EINVAL, []⟩)) "img"
        [0, 0, 0]).out
      = .ret 4 (some (.errorf ⟨"Too many bytes red, expected %d, got %d", [.int 3, .int 4]⟩)) := by
  decide

/-- Claim C3, amended: for every non-empty buffer `p` and every sequence of
positive raw-read answers whose sum is exactly `len(p)`, `Read` returns
`(len(p), nil)`. -/
theorem read_exact_fill (rs : List RawRead) (rest : Nat → RawRead) (name : String)
    (p : List Byte) (hp : p ≠ []) (hpos : ∀ r ∈ rs, 0 < r.ret)
    (hsum : (rs.map RawRead.ret).sum = p.length) :
    (Read (answersThen rs rest) name p).out = .ret p.length none := by
  have hlen : p.length ≠ 0 := fun h => hp (List.length_eq_zero.mp h)
  unfold Read
  rw [if_neg hlen, readLoop_fill name p.length rest rs p.length _ hpos (by simpa using hsum)
    (by simp) (by simp)]
  simp [hsum]

theorem read_exact_fill_witness :
    ([0, 0, 0] : List Byte) ≠ [] ∧
      (∀ r ∈ ([⟨2, [10, 11]⟩, ⟨1, [12]⟩] : List RawRead), 0 < r.ret) ∧
      (Read (answersThen [⟨2, [10, 11]⟩, ⟨1, [12]⟩] (fun _ => ⟨-EINVAL, []⟩)) "img"
        [0, 0, 0]).out = .ret 3 none :=
  ⟨by decide, by decide,
    read_exact_fill [⟨2, [10, 11]⟩, ⟨1, [12]⟩] (fun _ => ⟨-EINVAL, []⟩) "img" [0, 0, 0]
      (by decide) (by decide) (by decide)⟩

/-- Claim C4: the bytes `Read` returns should be the bytes the raw reads
supplied, in order.  On a 4-byte buffer with raw reads supplying `10 11` and
then `12 13` the code returns `(4, nil)` with the buffer `10 12 13 0`: the
second raw read is directed at index 1 (line 346 takes `retC - 1`), over the
byte 11 of the first. -/
theorem read_second_store_overlaps :
    Read (answersThen [⟨2, [10, 11]⟩, ⟨2, [12, 13]⟩] (fun _ => ⟨-EINVAL, []⟩)) "img"
        [0, 0, 0, 0]
      = ⟨.ret 4 none, [10, 12, 13, 0], [⟨0, 4, 0, 2⟩, ⟨2, 2, 1, 2⟩]⟩ := by
  decide

/-- Claim C5: the k-th raw read should be issued at the offset equal to the
bytes returned by the earlier raw reads.  With three raw reads of 1 byte on a
3-byte buffer the code issues them at the offsets 0, 1 and 3: line 349 adds
the running total `n`, not the last count. -/
theorem read_third_offset_skips :
    (Read (answersThen [⟨1, [10]⟩, ⟨1, [11]⟩, ⟨1, [12]⟩] (fun _ => ⟨-EINVAL, []⟩)) "img"
        [0, 0, 0]).calls
      = [⟨0, 3, 0, 1⟩, ⟨1, 2, 0, 1⟩, ⟨3, 1, 0, 1⟩] := by
  decide

/-- Claim C6: when the raw reads of a `Read` call answer positive counts that
total `n < len(p)` and the next raw read answers `-EINVAL`, `Read` returns
`(n, io.EOF)`; when the first raw read answers `-EINVAL` it returns
`(0, io.EOF)`. -/
theorem read_einval_is_eof (rs : List RawRead) (d : List Byte) (rest : Nat → RawRead)
    (name : String) (p : List Byte) (hpos : ∀ r ∈ rs, 0 < r.ret)
    (hlt : (rs.map RawRead.ret).sum < p.length) :
    (Read (answersThen (rs ++ [⟨-EINVAL, d⟩]) rest) name p).out
        = .ret (rs.map RawRead.ret).sum (some .eof) ∧
      (Read (answersThen [⟨-EINVAL, d⟩] rest) name p).out = .ret 0 (some .eof) := by
  have hnn := sum_ret_nonneg rs hpos
  have hlen : p.length ≠ 0 := by
    intro h
    rw [h] at hlt
    simp only [Nat.cast_zero] at hlt
    omega
  have hlen0 : (0 : Int) < p.length := by omega
  constructor
  · unfold Read
    rw [if_neg hlen, readLoop_eof name p.length rest d rs p.length _ hpos (by simpa using hlt)
      (by simp) (by simp)]
    simp
  · have h := readLoop_eof name p.length rest d [] p.length
      { n := 0, size := p.length, lenC := wrap64 p.length, offsetC := wrap64 0,
        bufPos := 0, buf := p } (by simp) (by simpa using hlen0) (by simp) (by simp)
    unfold Read
    rw [if_neg hlen]
    simpa using h

theorem read_einval_is_eof_witness :
    (∀ r ∈ ([⟨2, [10, 11]⟩] : List RawRead), 0 < r.ret) ∧
      (Read (answersThen ([⟨2, [10, 11]⟩] ++ [⟨-EINVAL, []⟩]) (fun _ => ⟨0, []⟩)) "img"
        [0, 0, 0, 0]).out = .ret 2 (some .eof) :=
  ⟨by decide,
    (read_einval_is_eof [⟨2, [10, 11]⟩] [] (fun _ => ⟨0, []⟩) "img" [0, 0, 0, 0]
      (by decide) (by decide)).1⟩

/-- Claim C7: whenever `Read` returns `(n, err)`, exactly one of three holds:
`err` is nil and `n = len(p)`; `err` is `io.EOF`; `err` is another error.  A
nil error never comes with a count below `len(p)`. -/
theorem read_three_outcomes (raw : Nat → RawRead) (name : String) (p : List Byte) (n : Int)
    (err : Option GoError) (h : (Read raw name p).out = .ret n err) :
    ((err = none ∧ n = p.length) ∨ err = some .eof ∨ ∃ e, err = some e ∧ e ≠ .eof) ∧
      ¬ ((err = none ∧ n = p.length) ∧ err = some .eof) ∧
      ¬ ((err = none ∧ n = p.length) ∧ ∃ e, err = some e ∧ e ≠ .eof) ∧
      ¬ (err = some .eof ∧ ∃ e, err = some e ∧ e ≠ .eof) ∧
      ¬ (err = none ∧ n < p.length) := by
  have hnil : err = none → n = p.length := by
    intro he
    subst he
    by_cases h0 : p.length = 0
    · simp [Read, h0] at h
    · rw [Read, if_neg h0] at h
      have := readLoop_nil name p.length _ _ _ _ h
      simpa using this
  refine ⟨?_, ?_, ?_, ?_, ?_⟩
  · cases err with
    | none => exact Or.inl ⟨rfl, hnil rfl⟩
    | some e =>
      by_cases he : e = .eof
      · exact Or.inr (Or.inl (by rw [he]))
      · exact Or.inr (Or.inr ⟨e, rfl, he⟩)
  · rintro ⟨⟨h1, _⟩, h2⟩
    rw [h1] at h2
    simp at h2
  · rintro ⟨⟨h1, _⟩, e, h2, _⟩
    rw [h1] at h2
    simp at h2
  · rintro ⟨h1, e, h2, h3⟩
    rw [h1] at h2
    simp only [Option.some.injEq] at h2
    exact h3 h2.symm
  · rintro ⟨h1, h2⟩
    have := hnil h1
    omega

theorem read_three_outcomes_witness :
    (Read (answersThen [⟨2, [10, 11]⟩, ⟨1, [12]⟩] (fun _ => ⟨-EINVAL, []⟩)) "img"
        [0, 0, 0]).out = .ret 3 none ∧
      ¬ ((none : Option GoError) = none ∧ (3 : Int) < ([0, 0, 0] : List Byte).length) :=
  ⟨by decide,
    (read_three_outcomes (answersThen [⟨2, [10, 11]⟩, ⟨1, [12]⟩] (fun _ => ⟨-EINVAL, []⟩))
      "img" [0, 0, 0] 3 none (by decide)).2.2.2.2⟩

/-- Claim C8: when a raw write issued by `Write` answers `-EINVAL`, no further
raw write is issued and `Write` returns `(n, io.EOF)` with `n` the sum of the
counts the preceding raw writes of the call answered. -/
theorem write_einval_is_eof (raw : Nat → Int) (name : String) (p : List Byte)
    (pre post : List RawCall) (c : RawCall)
    (h : (Write raw name p).calls = pre ++ c :: post) (hc : c.ret = -EINVAL) :
    post = [] ∧ (Write raw name p).out = .ret (retSum pre) (some .eof) := by
  unfold Write at h ⊢
  split_ifs at h ⊢ with h0
  · simp at h
  · have := writeLoop_einval_call name p.length _ _ _ _ _ _ h hc
    simpa using this

theorem write_einval_is_eof_witness :
    (Write (answersThen [5] (fun _ => -EINVAL)) "img" (List.replicate 14 7)).calls
        = [⟨0, 14, 0, 5⟩] ++ ⟨5, 9, 4, -EINVAL⟩ :: [] ∧
      (Write (answersThen [5] (fun _ => -EINVAL)) "img" (List.replicate 14 7)).out
        = .ret 5 (some .eof) :=
  ⟨by decide,
    (write_einval_is_eof (answersThen [5] (fun _ => -EINVAL)) "img" (List.replicate 14 7)
      [⟨0, 14, 0, 5⟩] [] ⟨5, 9, 4, -EINVAL⟩ (by decide) rfl).2⟩

/-- Claim C9: a raw write that answers more bytes than were requested should
end in an error value, never in a fault.  On a 3-byte buffer whose first raw
write answers 4 the code faults: line 412 indexes `p[3]` before the test of
lines 417-421 is reached. -/
theorem write_overcount_faults :
    Write (answersThen [4] (fun _ => -EINVAL)) "img" [1, 2, 3]
      = ⟨.fault, [⟨0, 3, 0, 4⟩]⟩ := by
  decide

/-- Claim C10, as stated, fails: a raw read that fails at offset 2 and one that
fails at offset 0 with the same code give the same `cError`, whose fields are
the message (image name and code), `want = 0` and the code: no offset. -/
theorem read_failure_has_no_offset :
    Read (answersThen [⟨2, [10, 11]⟩, ⟨-5, []⟩] (fun _ => ⟨-EINVAL, []⟩)) "img" [0, 0, 0, 0]
        = ⟨.ret 0 (some (.cError ⟨"Cannot read from image %s (%v)", [.str "img", .int (-5)]⟩
            0 (-5))), [10, 11, 0, 0], [⟨0, 4, 0, 2⟩, ⟨2, 2, 1, -5⟩]⟩ ∧
      Read (answersThen [⟨-5, []⟩] (fun _ => ⟨-EINVAL, []⟩)) "img" [0, 0, 0, 0]
        = ⟨.ret 0 (some (.cError ⟨"Cannot read from image %s (%v)", [.str "img", .int (-5)]⟩
            0 (-5))), [0, 0, 0, 0], [⟨0, 4, 0, -5⟩]⟩ := by
  decide

/-- Claim C10, amended: when a raw read of a `Read` call answers a negative
code other than `-EINVAL`, `Read` issues no further raw read and returns count
0 with a `cError` whose message holds the image name and the code, whose
`want` is 0 and whose `got` is the code converted to a C `int` (the code
itself when it fits 32 bits); the error holds no offset. -/
theorem read_failure_stops (raw : Nat → RawRead) (name : String) (p : List Byte)
    (pre post : List RawCall) (c : RawCall)
    (h : (Read raw name p).calls = pre ++ c :: post) (hneg : c.ret < 0)
    (hne : c.ret ≠ -EINVAL) :
    post = [] ∧
      (Read raw name p).out =
        .ret 0 (some (.cError ⟨"Cannot read from image %s (%v)", [.str name, .int c.ret]⟩
          0 (toCInt c.ret))) ∧
      (-(2 ^ 31) ≤ c.ret → toCInt c.ret = c.ret) := by
  refine ⟨?_, ?_, ?_⟩
  · unfold Read at h
    split_ifs at h with h0
    · simp at h
    · exact (readLoop_negative_call name p.length _ _ _ _ _ _ h hneg).1
  · unfold Read at h ⊢
    split_ifs at h ⊢ with h0
    · simp at h
    · exact (readLoop_negative_call name p.length _ _ _ _ _ _ h hneg).2.2 hne
  · intro hlo
    unfold toCInt
    omega

theorem read_failure_stops_witness :
    (Read (answersThen [⟨2, [10, 11]⟩, ⟨-5, []⟩] (fun _ => ⟨1, [9]⟩)) "img"
        [0, 0, 0, 0]).calls = [⟨0, 4, 0, 2⟩] ++ ⟨2, 2, 1, -5⟩ :: [] ∧
      (Read (answersThen [⟨2, [10, 11]⟩, ⟨-5, []⟩] (fun _ => ⟨1, [9]⟩)) "img"
        [0, 0, 0, 0]).out =
        .ret 0 (some (.cError ⟨"Cannot read from image %s (%v)", [.str "img", .int (-5)]⟩
          0 (toCInt (-5)))) :=
  ⟨by decide,
    (read_failure_stops (answersThen [⟨2, [10, 11]⟩, ⟨-5, []⟩] (fun _ => ⟨1, [9]⟩)) "img"
      [0, 0, 0, 0] [⟨0, 4, 0, 2⟩] [] ⟨2, 2, 1, -5⟩ (by decide) (by decide) (by decide)).2.1⟩

/-! ## Lemmas on the flat record decoder -/

theorem cutAt_none (sep : Byte) (f : List Byte) (h : sep ∉ f) : cutAt sep f = none := by
  induction f with
  | nil => rfl
  | cons b f ih =>
    have hb : b ≠ sep := fun e => h (by simp [e])
    have hf : sep ∉ f := fun m => h (List.mem_cons_of_mem _ m)
    simp [cutAt, hb, ih hf]

theorem cutAt_append (sep : Byte) (f rest : List Byte) (h : sep ∉ f) :
    cutAt sep (f ++ sep :: rest) = some (f, rest) := by
  induction f with
  | nil => simp [cutAt]
  | cons b f ih =>
    have hb : b ≠ sep := fun e => h (by simp [e])
    have hf : sep ∉ f := fun m => h (List.mem_cons_of_mem _ m)
    simp [cutAt, hb, ih hf]

theorem joinFields_cons_cons (f g : Str) (l : List Str) :
    joinFields (f :: g :: l) = f ++ 0 :: joinFields (g :: l) := rfl

/-- Cutting the joined fields gives the fields back: with exactly as many cuts
as there are separators, whatever the last field holds, or with more cuts
allowed when the last field is free of the zero byte too. -/
theorem splitLoop_joinFields :
    ∀ (l : List Str) (k : Nat), l ≠ [] → (∀ f ∈ l.dropLast, (0 : Byte) ∉ f) →
      (l.length = k + 1 ∨ (l.length ≤ k + 1 ∧ ∀ f ∈ l, (0 : Byte) ∉ f)) →
      splitLoop 0 k (joinFields l) = l := by
  intro l
  induction l with
  | nil => intro k h; exact absurd rfl h
  | cons f l ih =>
    intro k _ hdrop hk
    cases l with
    | nil =>
      cases k with
      | zero => rfl
      | succ k =>
        have hf : (0 : Byte) ∉ f := by
          rcases hk with hk | hk
          · simp at hk
          · exact hk.2 f (List.mem_cons_self _ _)
        simp [splitLoop, joinFields, cutAt_none 0 f hf]
    | cons g l =>
      have hf : (0 : Byte) ∉ f := hdrop f (by simp [List.dropLast])
      cases k with
      | zero =>
        rcases hk with hk | hk
        · simp at hk
        · simp at hk
      | succ k =>
        rw [joinFields_cons_cons]
        simp only [splitLoop, cutAt_append 0 f _ hf]
        congr 1
        apply ih k (by simp)
        · intro x hx
          exact hdrop x (by simp only [List.dropLast_cons₂]; exact List.mem_cons_of_mem _ hx)
        · rcases hk with hk | hk
          · left
            simpa using hk
          · right
            refine ⟨by simpa using hk.1, fun x hx => hk.2 x (List.mem_cons_of_mem _ hx)⟩

theorem length_joinFields (l : List Str) : l.length ≤ (joinFields l).length + 1 := by
  induction l with
  | nil => simp
  | cons f l ih =>
    cases l with
    | nil => simp
    | cons g l =>
      rw [joinFields_cons_cons]
      simp only [List.length_cons, List.length_append] at ih ⊢
      omega

theorem count_joinFields (l : List Str) (hne : l ≠ []) (hz : ∀ f ∈ l, (0 : Byte) ∉ f) :
    (joinFields l).count 0 + 1 = l.length := by
  induction l with
  | nil => exact absurd rfl hne
  | cons f l ih =>
    have hf : f.count 0 = 0 := List.count_eq_zero.mpr (hz f (List.mem_cons_self _ _))
    cases l with
    | nil => simp [joinFields, hf]
    | cons g l =>
      rw [joinFields_cons_cons]
      have := ih (by simp) (fun x hx => hz x (List.mem_cons_of_mem _ hx))
      simp only [List.count_append, List.count_cons_self, hf, List.length_cons] at this ⊢
      omega

/-- `bytes.SplitN` with the number of fields gives back zero-free fields joined
with the zero byte. -/
theorem bytesSplitN_joinFields (l : List Str) (hne : l ≠ [])
    (hz : ∀ f ∈ l, (0 : Byte) ∉ f) :
    bytesSplitN (joinFields l) 0 l.length = l := by
  have hlen := length_joinFields l
  have hpos : 0 < l.length := List.length_pos.mpr hne
  unfold bytesSplitN
  have h0 : ¬ ((l.length : Int) = 0) := by omega
  have h1 : ¬ ((l.length : Int) < 0) := by omega
  have h2 : ¬ ((l.length : Int) > ((joinFields l).length : Int) + 1) := by omega
  simp only [if_neg h0, if_neg h1, if_neg h2]
  apply splitLoop_joinFields l _ hne (fun f hf => hz f (List.dropLast_subset l hf))
  left
  omega

/-- `bytes.Split` gives back zero-free fields joined with the zero byte. -/
theorem bytesSplit_joinFields (l : List Str) (hne : l ≠ [])
    (hz : ∀ f ∈ l, (0 : Byte) ∉ f) :
    bytesSplitN (joinFields l) 0 (-1) = l := by
  have hlen := length_joinFields l
  have hcount := count_joinFields l hne hz
  have hpos : 0 < l.length := List.length_pos.mpr hne
  unfold bytesSplitN
  have h0 : ¬ ((-1 : Int) = 0) := by omega
  have h1 : ((-1 : Int) < 0) := by omega
  have h2 : ¬ ((((joinFields l).count 0 : Nat) : Int) + 1 > ((joinFields l).length : Int) + 1) := by
    have := List.count_le_length 0 (joinFields l)
    omega
  simp only [if_neg h0, if_pos h1, if_neg h2]
  apply splitLoop_joinFields l _ hne (fun f hf => hz f (List.dropLast_subset l hf))
  left
  omega

theorem joinFields_head (l : List Str) (hne : l ≠ [])
    (hn : ∀ f ∈ l, f ≠ [] ∧ (0 : Byte) ∉ f) :
    ∃ b t, b ≠ 0 ∧ joinFields l = b :: t := by
  cases l with
  | nil => exact absurd rfl hne
  | cons f l =>
    obtain ⟨hf, hz⟩ := hn f (List.mem_cons_self _ _)
    cases f with
    | nil => exact absurd rfl hf
    | cons b f =>
      have hb : b ≠ 0 := fun e => hz (by simp [e])
      cases l with
      | nil => exact ⟨b, f, hb, rfl⟩
      | cons g l => exact ⟨b, f ++ 0 :: joinFields (g :: l), hb, rfl⟩

/-- `splitData` gives back non-empty zero-free names from their encoding. -/
theorem splitData_encodeFields (l : List Str) (hne : l ≠ [])
    (hn : ∀ f ∈ l, f ≠ [] ∧ (0 : Byte) ∉ f) :
    splitData (encodeFields l) = .ret (l, none) := by
  obtain ⟨b, t, hb, hj⟩ := joinFields_head l hne hn
  have hsplit := bytesSplit_joinFields l hne (fun f hf => (hn f hf).2)
  have hb0 : ¬ (b = 0) := hb
  have htake : (b :: (t ++ [0])).take (t.length + 1) = b :: t := by
    simp [List.take_succ_cons]
  unfold splitData encodeFields
  rw [hj] at hsplit ⊢
  simp only [List.cons_append, List.length_cons, List.length_append, List.length_nil,
    List.getElem?_cons_zero, Option.some.injEq]
  rw [if_neg (by omega), if_neg (fun h => hb0 h.2.1), if_neg (by omega)]
  rw [show t.length + (0 + 1) + 1 - 1 = t.length + 1 from by omega, htake, hsplit]

theorem run_after_out {α β : Type} (c : β) (r : Run α β) : (r.after c).out = r.out := rfl

theorem run_after_calls {α β : Type} (c : β) (r : Run α β) :
    (r.after c).calls = c :: r.calls := rfl

/-- After insufficient-capacity answers that leave non-zero sizes, `Rbd.List`
decodes the buffer the first non-negative answer filled. -/
theorem listLoop_erange_then (a : ListAnswer) (rest : Nat → ListAnswer) (ha : 0 ≤ a.ret) :
    ∀ (pre : List ListAnswer) (left alloc sizeC : Nat),
      (∀ x ∈ pre, x.ret = -ERANGE ∧ 0 < x.size) → 0 < alloc → pre.length < left →
      (listLoop left (answersThen (pre ++ [a]) rest) alloc sizeC).out
        = splitData (fillBuf (lastSize pre alloc) a.data) := by
  intro pre
  induction pre with
  | nil =>
    intro left alloc sizeC _ halloc hleft
    cases left with
    | zero => simp at hleft
    | succ left =>
      have h0 : ¬ alloc = 0 := by omega
      simp [listLoop, h0, answersThen_zero, ha, lastSize]
  | cons x pre ih =>
    intro left alloc sizeC hpre halloc hleft
    obtain ⟨hx, hxs⟩ := hpre x (List.mem_cons_self _ _)
    cases left with
    | zero => simp at hleft
    | succ left =>
      have h0 : ¬ alloc = 0 := by omega
      have h1 : ¬ (0 ≤ x.ret) := by rw [hx]; decide
      simp only [List.cons_append, listLoop, if_neg h0, answersThen_zero, if_neg h1, if_pos hx,
        answersThen_shift, run_after_out, lastSize]
      exact ih left x.size x.size (fun y hy => hpre y (List.mem_cons_of_mem _ hy)) hxs
        (by simpa using hleft)

/-- `Rbd.List` issues at most `maxRetry = 10` raw calls. -/
theorem listLoop_calls_le :
    ∀ (left : Nat) (raw : Nat → ListAnswer) (alloc sizeC : Nat),
      (listLoop left raw alloc sizeC).calls.length ≤ left := by
  intro left
  induction left with
  | zero => intro raw alloc sizeC; simp [listLoop]
  | succ left ih =>
    intro raw alloc sizeC
    simp only [listLoop]
    split_ifs
    all_goals simp only [run_after_calls, List.length_cons, List.length_nil, List.length_singleton]
    all_goals try omega
    have := ih (fun k => raw (k + 1)) (raw 0).size (raw 0).size
    omega

/-- `Read` ends: its loop never exhausts the bound of the model. -/
theorem read_ends (raw : Nat → RawRead) (name : String) (p : List Byte) :
    (Read raw name p).out ≠ .outOfFuel := by
  unfold Read
  split_ifs
  · simp
  · exact readLoop_ends name p.length _ _ _ (by simp)

/-- `Write` ends: its loop never exhausts the bound of the model. -/
theorem write_ends (raw : Nat → Int) (name : String) (p : List Byte) :
    (Write raw name p).out ≠ .outOfFuel := by
  unfold Write
  split_ifs
  · simp
  · exact writeLoop_ends name p.length _ _ _ (by simp)

/-! ## Lemmas on the negotiated queries -/

theorem fillBuf_length (alloc : Nat) (data : List Byte) : (fillBuf alloc data).length = alloc := by
  simp only [fillBuf, List.length_take, List.length_append, List.length_replicate]
  omega

theorem fillBuf_take (alloc n : Nat) (data : List Byte) (hn : n ≤ data.length)
    (ha : n ≤ alloc) : (fillBuf alloc data).take n = data.take n := by
  simp only [fillBuf, List.take_take, Nat.min_eq_left ha]
  rw [List.take_append_of_le_length hn]

/-- The slice that drops the terminator of a stored block that fits the
buffer. -/
theorem sliceTo_fillBuf (alloc : Nat) (j : List Byte) (h : j.length + 1 ≤ alloc) :
    sliceTo (fillBuf alloc (j ++ [0])) (((j ++ [0]).length : Int) - 1) = .ret j := by
  have hlen := fillBuf_length alloc (j ++ [0])
  unfold sliceTo
  simp only [hlen, List.length_append, List.length_singleton, Nat.cast_add, Nat.cast_one,
    add_sub_cancel_right]
  rw [if_neg (by omega)]
  simp only [Int.toNat_ofNat]
  rw [fillBuf_take alloc j.length _ (by simp) (by omega)]
  simp

theorem ended_map_ret {α β : Type} (f : α → β) (v : α) : (Ended.ret v).map f = .ret (f v) := rfl

/-- The rows of `ListChildren` when `image` has an entry for every index used. -/
theorem childRows_zip (image : List Str) :
    ∀ (pool : List Str) (i : Nat), pool.length + i ≤ image.length →
      childRows image i pool = .ret (pool.zip (image.drop i)) := by
  intro pool
  induction pool with
  | nil => intro i _; simp [childRows]
  | cons v pool ih =>
    intro i h
    have hi : i < image.length := by
      simp only [List.length_cons] at h
      omega
    have hnext : pool.length + (i + 1) ≤ image.length := by
      simp only [List.length_cons] at h
      omega
    rw [childRows, List.getElem?_eq_getElem hi]
    simp only
    rw [ih (i + 1) hnext, ended_map_ret, List.drop_eq_getElem_cons hi, List.zip_cons_cons]

/-- The rows of `ListLockers` when `cookie` and `addr` have an entry for every
index used. -/
theorem lockerRows_zip (cookie addr : List Str) :
    ∀ (client : List Str) (i : Nat), client.length + i ≤ cookie.length →
      client.length + i ≤ addr.length →
      lockerRows cookie addr i client
        = .ret (List.zipWith3 (fun c k a => [c, k, a]) client (cookie.drop i) (addr.drop i)) := by
  intro client
  induction client with
  | nil => intro i _ _; simp [lockerRows, List.zipWith3]
  | cons c client ih =>
    intro i hk ha
    simp only [List.length_cons] at hk ha
    have hik : i < cookie.length := by omega
    have hia : i < addr.length := by omega
    rw [lockerRows, List.getElem?_eq_getElem hik, List.getElem?_eq_getElem hia]
    simp only
    rw [ih (i + 1) (by omega) (by omega), ended_map_ret, List.drop_eq_getElem_cons hik,
      List.drop_eq_getElem_cons hia]
    rfl

/-- After insufficient-capacity answers that leave non-zero sizes,
`ListChildren` runs the code after its loop on the first non-negative answer. -/
theorem listChildrenLoop_erange_then (name : String) (a : ChildrenAnswer)
    (rest : Nat → ChildrenAnswer) (ha : 0 ≤ a.ret) :
    ∀ (pre : List ChildrenAnswer) (fuel p i : Nat),
      (∀ x ∈ pre, x.ret = -ERANGE ∧ 0 < x.poolsSize ∧ 0 < x.imagesSize) →
      0 < p → 0 < i → pre.length < fuel →
      (listChildrenLoop name fuel (answersThen (pre ++ [a]) rest) p i).out
        = childrenAfterLoop a.ret (fillBuf (lastChildSizes pre (p, i)).1 a.pools)
            (fillBuf (lastChildSizes pre (p, i)).2 a.images) a.poolsSize a.imagesSize := by
  intro pre
  induction pre with
  | nil =>
    intro fuel p i _ hp hi hfuel
    cases fuel with
    | zero => simp at hfuel
    | succ fuel =>
      have h0 : ¬ (p = 0 ∨ i = 0) := by omega
      simp [listChildrenLoop, h0, answersThen_zero, ha, lastChildSizes]
  | cons x pre ih =>
    intro fuel p i hpre hp hi hfuel
    obtain ⟨hx, hxp, hxi⟩ := hpre x (List.mem_cons_self _ _)
    cases fuel with
    | zero => simp at hfuel
    | succ fuel =>
      have h0 : ¬ (p = 0 ∨ i = 0) := by omega
      have h1 : ¬ (0 ≤ x.ret) := by rw [hx]; decide
      have h2 : ¬ (x.ret ≠ -ERANGE) := by simp [hx]
      simp only [List.cons_append, listChildrenLoop, if_neg h0, answersThen_zero, if_neg h1,
        if_neg h2, answersThen_shift, run_after_out, lastChildSizes]
      exact ih fuel x.poolsSize x.imagesSize (fun y hy => hpre y (List.mem_cons_of_mem _ hy))
        hxp hxi (by simpa using hfuel)

/-- After insufficient-capacity answers that leave non-zero sizes,
`ListLockers` runs the code after its loop on the first non-negative answer. -/
theorem listLockersLoop_erange_then (name : String) (a : LockersAnswer)
    (rest : Nat → LockersAnswer) (ha : 0 ≤ a.ret) :
    ∀ (pre : List LockersAnswer) (fuel : Nat) (alloc : LockSizes),
      (∀ x ∈ pre, x.ret = -ERANGE ∧ 0 < x.sizes.tag ∧ 0 < x.sizes.clients ∧
        0 < x.sizes.cookies ∧ 0 < x.sizes.addrs) →
      0 < alloc.tag → 0 < alloc.clients → 0 < alloc.cookies → 0 < alloc.addrs →
      pre.length < fuel →
      (listLockersLoop name fuel (answersThen (pre ++ [a]) rest) alloc).out
        = lockersAfterLoop a (lastLockSizes pre alloc) := by
  intro pre
  induction pre with
  | nil =>
    intro fuel alloc _ ht hc hk had hfuel
    cases fuel with
    | zero => simp at hfuel
    | succ fuel =>
      have h0 : ¬ (alloc.clients = 0 ∨ alloc.cookies = 0 ∨ alloc.addrs = 0 ∨ alloc.tag = 0) := by
        omega
      simp [listLockersLoop, h0, answersThen_zero, ha, lastLockSizes]
  | cons x pre ih =>
    intro fuel alloc hpre ht hc hk had hfuel
    obtain ⟨hx, hxt, hxc, hxk, hxa⟩ := hpre x (List.mem_cons_self _ _)
    cases fuel with
    | zero => simp at hfuel
    | succ fuel =>
      have h0 : ¬ (alloc.clients = 0 ∨ alloc.cookies = 0 ∨ alloc.addrs = 0 ∨ alloc.tag = 0) := by
        omega
      have h1 : ¬ (0 ≤ x.ret) := by rw [hx]; decide
      have h2 : ¬ (x.ret ≠ -ERANGE) := by simp [hx]
      simp only [List.cons_append, listLockersLoop, if_neg h0, answersThen_zero, if_neg h1,
        if_neg h2, answersThen_shift, run_after_out, lastLockSizes]
      exact ih fuel x.sizes (fun y hy => hpre y (List.mem_cons_of_mem _ hy)) hxt hxc hxk hxa
        (by simpa using hfuel)

/-- With insufficient capacity answered on every call, the loop of
`ListChildren` issues a raw call on every iteration and never leaves. -/
theorem listChildrenLoop_erange_forever (name : String) (a : ChildrenAnswer)
    (ha : a.ret = -ERANGE) (hp : 0 < a.poolsSize) (hi : 0 < a.imagesSize) :
    ∀ (fuel p i : Nat), 0 < p → 0 < i →
      (listChildrenLoop name fuel (fun _ => a) p i).out = .outOfFuel ∧
      (listChildrenLoop name fuel (fun _ => a) p i).calls.length = fuel := by
  intro fuel
  induction fuel with
  | zero => intro p i _ _; simp [listChildrenLoop]
  | succ fuel ih =>
    intro p i hp0 hi0
    have h0 : ¬ (p = 0 ∨ i = 0) := by omega
    have h1 : ¬ (0 ≤ a.ret) := by rw [ha]; decide
    have h2 : ¬ (a.ret ≠ -ERANGE) := by simp [ha]
    simp only [listChildrenLoop, if_neg h0, if_neg h1, if_neg h2, run_after_out, run_after_calls,
      List.length_cons]
    have := ih a.poolsSize a.imagesSize hp hi
    exact ⟨this.1, by omega⟩

/-- With insufficient capacity answered on every call, the loop of
`ListLockers` issues a raw call on every iteration and never leaves. -/
theorem listLockersLoop_erange_forever (name : String) (a : LockersAnswer)
    (ha : a.ret = -ERANGE) (ht : 0 < a.sizes.tag) (hc : 0 < a.sizes.clients)
    (hk : 0 < a.sizes.cookies) (had : 0 < a.sizes.addrs) :
    ∀ (fuel : Nat) (alloc : LockSizes), 0 < alloc.tag → 0 < alloc.clients →
      0 < alloc.cookies → 0 < alloc.addrs →
      (listLockersLoop name fuel (fun _ => a) alloc).out = .outOfFuel ∧
      (listLockersLoop name fuel (fun _ => a) alloc).calls.length = fuel := by
  intro fuel
  induction fuel with
  | zero => intro alloc _ _ _ _; simp [listLockersLoop]
  | succ fuel ih =>
    intro alloc h1 h2 h3 h4
    have h0 : ¬ (alloc.clients = 0 ∨ alloc.cookies = 0 ∨ alloc.addrs = 0 ∨ alloc.tag = 0) := by
      omega
    have hneg : ¬ (0 ≤ a.ret) := by rw [ha]; decide
    have hne : ¬ (a.ret ≠ -ERANGE) := by simp [ha]
    simp only [listLockersLoop, if_neg h0, if_neg hneg, if_neg hne, run_after_out,
      run_after_calls, List.length_cons]
    have := ih a.sizes ht hc hk had
    exact ⟨this.1, by omega⟩

/-! ## Lemmas on `ParentInfo` -/

theorem range_succ_map_pow (size k : Nat) :
    (List.range (k + 1)).map (fun i => size * 2 ^ i)
      = size :: (List.range k).map (fun i => size * 2 * 2 ^ i) := by
  rw [List.range_succ_eq_map, List.map_cons, List.map_map]
  congr 1
  · simp
  · apply List.map_congr_left
    intro i _
    simp only [Function.comp_apply, Nat.succ_eq_add_one, pow_succ]
    ring

theorem range_one_map_pow (size : Nat) :
    (List.range 1).map (fun i => size * 2 ^ i) = [size] := by
  simp [List.range_succ]

/-- The failure `ParentInfo` returns for the code `retC`. -/
theorem parentAfterLoop_failure (name : String) (st : ParentState) (h : st.retC ≠ 0) :
    parentAfterLoop name st
      = .ret (none, some (.cError ⟨"Cannot get parent info for images %s", [.str name]⟩ 0
          st.retC)) := by
  simp [parentAfterLoop, h]

/-- The loop of `ParentInfo` left by a state that does not satisfy its
condition issues no raw call. -/
theorem parentInfoLoop_skip (name : String) (fuel : Nat) (raw : Nat → ParentAnswer)
    (st : ParentState) (h : ¬ (st.retC = -ERANGE ∧ st.size ≤ 4096)) :
    parentInfoLoop name fuel raw st = ⟨parentAfterLoop name st, []⟩ := by
  cases fuel <;> simp only [parentInfoLoop, if_neg h]

/-- One iteration of the loop of `ParentInfo`. -/
theorem parentInfoLoop_step (name : String) (fuel : Nat) (raw : Nat → ParentAnswer)
    (st : ParentState) (hr : st.retC = -ERANGE) (hs : st.size ≤ 4096) (h0 : 0 < st.size) :
    parentInfoLoop name (fuel + 1) raw st
      = (parentInfoLoop name fuel (fun k => raw (k + 1))
          { size := if (raw 0).ret = -ERANGE then st.size * 2 else st.size
            retC := (raw 0).ret
            poolBuf := fillBuf st.size (raw 0).pool
            nameBuf := fillBuf st.size (raw 0).name
            snapNameBuf := fillBuf st.size (raw 0).snapName }).after st.size := by
  have hc : st.retC = -ERANGE ∧ st.size ≤ 4096 := ⟨hr, hs⟩
  have hz : ¬ st.size = 0 := by omega
  simp only [parentInfoLoop, if_pos hc, if_neg hz]

/-- Insufficient capacity on every attempt: the capacities double up to the
ceiling and the loop ends in the failure for `-ERANGE`. -/
theorem parentInfoLoop_erange_to_cap (name : String) :
    ∀ (k fuel : Nat) (raw : Nat → ParentAnswer) (st : ParentState),
      st.retC = -ERANGE → 0 < st.size → 4096 < st.size * 2 ^ k → st.size * 2 ^ k ≤ 8192 →
      (∀ j < k, (raw j).ret = -ERANGE) → k ≤ fuel →
      (parentInfoLoop name fuel raw st).out
          = .ret (none, some (.cError ⟨"Cannot get parent info for images %s", [.str name]⟩ 0
              (-ERANGE))) ∧
        (parentInfoLoop name fuel raw st).calls = (List.range k).map (fun i => st.size * 2 ^ i) := by
  intro k
  induction k with
  | zero =>
    intro fuel raw st hr h0 hlo _ _ _
    simp only [pow_zero, mul_one] at hlo
    rw [parentInfoLoop_skip name fuel raw st (by omega),
      parentAfterLoop_failure name st (by rw [hr]; decide), hr]
    simp
  | succ k ih =>
    intro fuel raw st hr h0 hlo hhi hraw hfuel
    have hs : st.size ≤ 4096 := by
      have : 1 ≤ 2 ^ k := Nat.one_le_two_pow
      rw [pow_succ] at hhi
      nlinarith
    cases fuel with
    | zero => omega
    | succ fuel =>
      have hr0 : (raw 0).ret = -ERANGE := hraw 0 (by omega)
      rw [parentInfoLoop_step name fuel raw st hr hs h0, run_after_out, run_after_calls,
        range_succ_map_pow]
      simp only [if_pos hr0]
      have := ih fuel (fun j => raw (j + 1))
        { size := st.size * 2, retC := (raw 0).ret, poolBuf := fillBuf st.size (raw 0).pool,
          nameBuf := fillBuf st.size (raw 0).name, snapNameBuf := fillBuf st.size (raw 0).snapName }
        hr0 (by simp only; omega)
        (by simp only; rw [pow_succ] at hlo; nlinarith)
        (by simp only; rw [pow_succ] at hhi; nlinarith)
        (fun j hj => hraw (j + 1) (by omega)) (by omega)
      exact ⟨this.1, by rw [this.2]⟩

/-- Insufficient capacity on the first `k` attempts and another answer on the
next: the capacities double `k` times and the loop ends on that answer. -/
theorem parentInfoLoop_erange_then (name : String) :
    ∀ (k fuel : Nat) (raw : Nat → ParentAnswer) (st : ParentState),
      st.retC = -ERANGE → 0 < st.size → st.size * 2 ^ k ≤ 4096 →
      (∀ j < k, (raw j).ret = -ERANGE) → (raw k).ret ≠ -ERANGE → k < fuel →
      (parentInfoLoop name fuel raw st).out
          = parentAfterLoop name
              { size := st.size * 2 ^ k, retC := (raw k).ret
                poolBuf := fillBuf (st.size * 2 ^ k) (raw k).pool
                nameBuf := fillBuf (st.size * 2 ^ k) (raw k).name
                snapNameBuf := fillBuf (st.size * 2 ^ k) (raw k).snapName } ∧
        (parentInfoLoop name fuel raw st).calls
          = (List.range (k + 1)).map (fun i => st.size * 2 ^ i) := by
  intro k
  induction k with
  | zero =>
    intro fuel raw st hr h0 hhi _ hk hfuel
    simp only [pow_zero, mul_one] at hhi
    cases fuel with
    | zero => omega
    | succ fuel =>
      rw [parentInfoLoop_step name fuel raw st hr hhi h0, run_after_out, run_after_calls]
      simp only [if_neg hk]
      rw [parentInfoLoop_skip name fuel _ _ (by simp only; exact fun h => hk h.1),
        range_one_map_pow]
      simp only [pow_zero, mul_one]
      refine ⟨?_, ?_⟩ <;> first | rfl | trivial
  | succ k ih =>
    intro fuel raw st hr h0 hhi hraw hk hfuel
    have hs : st.size ≤ 4096 := by
      have : 1 ≤ 2 ^ (k + 1) := Nat.one_le_two_pow
      nlinarith
    cases fuel with
    | zero => omega
    | succ fuel =>
      have hr0 : (raw 0).ret = -ERANGE := hraw 0 (by omega)
      rw [parentInfoLoop_step name fuel raw st hr hs h0, run_after_out, run_after_calls,
        range_succ_map_pow st.size (k + 1)]
      simp only [if_pos hr0]
      have := ih fuel (fun j => raw (j + 1))
        { size := st.size * 2, retC := (raw 0).ret, poolBuf := fillBuf st.size (raw 0).pool,
          nameBuf := fillBuf st.size (raw 0).name, snapNameBuf := fillBuf st.size (raw 0).snapName }
        hr0 (by simp only; omega)
        (by simp only; rw [pow_succ] at hhi; nlinarith)
        (fun j hj => hraw (j + 1) (by omega)) hk (by omega)
      have he : st.size * 2 * 2 ^ k = st.size * 2 ^ (k + 1) := by rw [pow_succ]; ring
      simp only [he] at this
      exact ⟨this.1, by rw [this.2]⟩

/-- The capacities `ParentInfo` tries are doubled from the first and none is
above the ceiling; after an answer other than `-ERANGE` no call is issued. -/
theorem parentInfoLoop_calls (name : String) :
    ∀ (fuel : Nat) (raw : Nat → ParentAnswer) (st : ParentState), 0 < st.size →
      ∃ m, (parentInfoLoop name fuel raw st).calls = (List.range m).map (fun i => st.size * 2 ^ i) ∧
        (st.retC ≠ -ERANGE → m = 0) ∧ ∀ i < m, st.size * 2 ^ i ≤ 4096 := by
  intro fuel
  induction fuel with
  | zero =>
    intro raw st _
    refine ⟨0, ?_, fun _ => rfl, fun i hi => absurd hi (Nat.not_lt_zero i)⟩
    simp only [parentInfoLoop]
    split_ifs <;> rfl
  | succ fuel ih =>
    intro raw st h0
    by_cases hc : st.retC = -ERANGE ∧ st.size ≤ 4096
    · rw [parentInfoLoop_step name fuel raw st hc.1 hc.2 h0, run_after_calls]
      by_cases hr0 : (raw 0).ret = -ERANGE
      · simp only [if_pos hr0]
        obtain ⟨m, hm, _, hb⟩ := ih (fun j => raw (j + 1))
          { size := st.size * 2, retC := (raw 0).ret, poolBuf := fillBuf st.size (raw 0).pool,
            nameBuf := fillBuf st.size (raw 0).name
            snapNameBuf := fillBuf st.size (raw 0).snapName } (by simp only; omega)
        refine ⟨m + 1, ?_, fun h => absurd hc.1 h, ?_⟩
        · rw [hm, range_succ_map_pow]
        · intro i hi
          cases i with
          | zero => simpa using hc.2
          | succ i =>
            have := hb i (by omega)
            simp only at this
            rw [pow_succ]
            nlinarith
      · simp only [if_neg hr0]
        obtain ⟨m, hm, hz, _⟩ := ih (fun j => raw (j + 1))
          { size := st.size, retC := (raw 0).ret, poolBuf := fillBuf st.size (raw 0).pool,
            nameBuf := fillBuf st.size (raw 0).name
            snapNameBuf := fillBuf st.size (raw 0).snapName } h0
        have hm0 : m = 0 := hz hr0
        subst hm0
        refine ⟨1, ?_, fun h => absurd hc.1 h, ?_⟩
        · rw [hm, range_one_map_pow]
          rfl
        · intro i hi
          have : i = 0 := by omega
          subst this
          simpa using hc.2
    · rw [parentInfoLoop_skip name (fuel + 1) raw st hc]
      refine ⟨0, rfl, fun _ => rfl, fun i hi => absurd hi (Nat.not_lt_zero i)⟩

/-! ## Lemmas on `DiffIterate` and on the lock calls -/

theorem toInt64_of_lt (x : Nat) (h : (x : Int) < 2 ^ 63) : toInt64 x = x := by
  unfold toInt64
  omega

theorem toCInt_of_range (r : Int) (hlo : -(2 ^ 31) ≤ r) (hhi : r < 2 ^ 31) : toCInt r = r := by
  unfold toCInt
  omega

/-- Every callback of a scan is for an extent of the scan, with the arguments
and the value handed back that `goDiffCB` computes. -/
theorem diffScan_records {δ σ : Type} (stop : Int → Bool) (f : DiffHandler δ σ) (d : δ) :
    ∀ (es : List Extent) (s : σ), ∀ i ∈ (diffScan stop (goDiffCB f d) es s).2.2,
      i.extent ∈ es ∧ i.offset = toInt64 i.extent.offset ∧ i.length = toInt64 i.extent.length ∧
        i.exist = i.extent.exist ∧ i.d = d ∧ i.back = toCInt i.handlerRet ∧
        ∃ m, i.handlerRet = (f i.offset i.length i.exist d m).1 := by
  intro es
  induction es with
  | nil => intro s i hi; simp [diffScan] at hi
  | cons e es ih =>
    intro s i hi
    simp only [diffScan] at hi
    split_ifs at hi
    · simp only [List.mem_singleton] at hi
      subst hi
      exact ⟨List.mem_cons_self _ _, rfl, rfl, rfl, rfl, rfl, s, rfl⟩
    · simp only [List.mem_cons] at hi
      rcases hi with hi | hi
      · subst hi
        exact ⟨List.mem_cons_self _ _, rfl, rfl, rfl, rfl, rfl, s, rfl⟩
      · obtain ⟨h1, h2⟩ := ih _ i hi
        exact ⟨List.mem_cons_of_mem _ h1, h2⟩

/-- The callbacks of a scan are for the extents of the scan in order, one
each, up to the extent at which the primitive stops. -/
theorem diffScan_extents {δ σ : Type} (stop : Int → Bool) (f : DiffHandler δ σ) (d : δ) :
    ∀ (es : List Extent) (s : σ),
      ((diffScan stop (goDiffCB f d) es s).2.2.map (fun i => i.extent)) <+: es ∧
      ((∀ r, stop r = false) →
        (diffScan stop (goDiffCB f d) es s).2.2.map (fun i => i.extent) = es) := by
  intro es
  induction es with
  | nil => intro s; simp [diffScan]
  | cons e es ih =>
    intro s
    simp only [diffScan]
    split_ifs with hs
    · refine ⟨?_, fun h => ?_⟩
      · simp only [List.map_cons, List.map_nil]
        exact ⟨es, rfl⟩
      · rw [h] at hs
        exact absurd hs (by decide)
    · obtain ⟨h1, h2⟩ := ih (goDiffCB f d e s).2.1
      refine ⟨?_, fun h => ?_⟩
      · simp only [List.map_cons]
        obtain ⟨t, ht⟩ := h1
        exact ⟨t, by rw [List.cons_append, ht]; rfl⟩
      · simp only [List.map_cons, h2 h]
        rfl

theorem diffIterate_invocations {δ σ : Type} (extents : List Extent) (stop : Int → Bool)
    (status : List Int → Int) (fromSnapshot : String) (f : DiffHandler δ σ) (d : δ) (s : σ) :
    (DiffIterate extents stop status fromSnapshot f d s).invocations
      = (diffScan stop (goDiffCB f d) extents s).2.2 := by
  unfold DiffIterate
  simp only
  split_ifs <;> rfl

/-- A successful `LockExclusive` leaves the volume held by the caller. -/
theorem lockExclusive_success (name : String) (me cookie : Str) (s : LockState)
    (h : (LockExclusive name me cookie s).1 = none) :
    (LockExclusive name me cookie s).2 = .exclusiveHeld me cookie := by
  cases s with
  | unlocked => rfl
  | exclusiveHeld c k =>
    simp [LockExclusive, lockResult, rbd_lock_exclusive, EBUSY] at h
  | sharedHeld t hs =>
    simp [LockExclusive, lockResult, rbd_lock_exclusive, EBUSY] at h

/-- On a volume held exclusively every acquisition is rejected and the state
stays. -/
theorem acquire_on_exclusive (name : String) (a b : Str) (c : LockCall)
    (hc : c.acquires = true) :
    (∃ format, (c.perform name (.exclusiveHeld a b)).1
        = some (.cError ⟨format, [.str name]⟩ 0 (-EBUSY))) ∧
      (c.perform name (.exclusiveHeld a b)).2 = .exclusiveHeld a b := by
  cases c with
  | lockExclusive me cookie =>
    exact ⟨⟨"Cannot acquire exclusive lock on image %s",
        by simp [LockCall.perform, LockExclusive, lockResult, rbd_lock_exclusive, EBUSY]⟩,
      by simp [LockCall.perform, LockExclusive, lockResult, rbd_lock_exclusive, EBUSY]⟩
  | lockShared me cookie tag =>
    exact ⟨⟨"Cannot acquire shared lock on image %s",
        by simp [LockCall.perform, LockShared, lockResult, rbd_lock_shared, EBUSY]⟩,
      by simp [LockCall.perform, LockShared, lockResult, rbd_lock_shared, EBUSY]⟩
  | unlock me cookie => simp [LockCall.acquires] at hc
  | breakLock client cookie => simp [LockCall.acquires] at hc

/-- A release that fails on a volume held exclusively leaves the state. -/
theorem release_failed_on_exclusive (name : String) (a b : Str) (c : LockCall)
    (hc : c.acquires = false) (hfail : (c.perform name (.exclusiveHeld a b)).1 ≠ none) :
    (c.perform name (.exclusiveHeld a b)).2 = .exclusiveHeld a b := by
  cases c with
  | lockExclusive me cookie => simp [LockCall.acquires] at hc
  | lockShared me cookie tag => simp [LockCall.acquires] at hc
  | unlock me cookie =>
    by_cases hm : a = me ∧ b = cookie
    · simp [LockCall.perform, Unlock, lockResult, rbd_unlock, removeHolder, hm] at hfail
    · simp [LockCall.perform, Unlock, lockResult, rbd_unlock, removeHolder, hm, ENOENT]
  | breakLock client cookie =>
    by_cases hm : a = client ∧ b = cookie
    · simp [LockCall.perform, BreakLock, lockResult, rbd_break_lock, removeHolder, hm] at hfail
    · simp [LockCall.perform, BreakLock, lockResult, rbd_break_lock, removeHolder, hm, ENOENT]

/-- While no release succeeds, a volume held exclusively stays held by the
same holder. -/
theorem stateAfter_exclusive (name : String) (a b : Str) :
    ∀ (pre : List LockCall), noRemoval name pre (.exclusiveHeld a b) →
      stateAfter name pre (.exclusiveHeld a b) = .exclusiveHeld a b := by
  intro pre
  induction pre with
  | nil => intro _; rfl
  | cons c pre ih =>
    intro h
    obtain ⟨h1, h2⟩ := h
    have hs : (c.perform name (.exclusiveHeld a b)).2 = .exclusiveHeld a b := by
      cases hc : c.acquires with
      | true => exact (acquire_on_exclusive name a b c hc).2
      | false => exact release_failed_on_exclusive name a b c hc (h1 hc)
    rw [hs] at h2
    simp only [stateAfter, hs]
    exact ih h2

theorem joinFields_cons_of_ne (f : Str) (t : List Str) (h : t ≠ []) :
    joinFields (f :: t) = f ++ 0 :: joinFields t := by
  cases t with
  | nil => exact absurd rfl h
  | cons g l => rfl

/-- The encoding is the joined form of the fields with a zero byte appended to
the last field. -/
theorem encodeFields_eq_join :
    ∀ (l : List Str) (hne : l ≠ []),
      encodeFields l = joinFields (l.dropLast ++ [l.getLast hne ++ [0]]) := by
  intro l
  induction l with
  | nil => intro hne; exact absurd rfl hne
  | cons f l ih =>
    intro hne
    cases l with
    | nil => simp [encodeFields, joinFields]
    | cons g l =>
      have h := ih (by simp)
      unfold encodeFields at h ⊢
      rw [joinFields_cons_cons, List.dropLast_cons₂, List.cons_append,
        joinFields_cons_of_ne f _ (by simp), List.getLast_cons (by simp), ← h]
      simp

/-! ## The claims on faults, on the decoder and on `Rbd.List` -/

/-- Claim C11: with a primitive that answers counts between 0 and the length
requested, `Read` and `Write` should return a result for every buffer.  A
count of 0 makes both index `p[-1]` (lines 346 and 412), and the empty buffer
makes both index `p[0]` (lines 335 and 397): all four calls fault.  (The loops
do end: see `read_ends` and `write_ends`.) -/
theorem read_write_fault_within_contract :
    (Read (fun _ => ⟨0, []⟩) "img" [1, 2, 3]).out = .fault ∧
      (Write (fun _ => 0) "img" [1, 2, 3]).out = .fault ∧
      (Read (fun _ => ⟨0, []⟩) "img" []).out = .fault ∧
      (Write (fun _ => 0) "img" []).out = .fault := by
  decide

/-- Claim C12, as stated, fails: on the encoding `a 0 b 0` of the two fields
`a`, `b` with `count = 2`, `splitDataN` returns `a` and `b 0`: the last field
is the unsplit remainder and keeps the trailing zero byte. -/
theorem splitDataN_keeps_trailing_zero :
    splitDataN (encodeFields [[97], [98]]) 2 = ([[97], [98, 0]], none) := by
  decide

/-- Claim C12, amended: for every non-empty list `l` of fields without the zero
byte, `splitDataN` applied to the fields joined with a zero byte and no
trailing zero byte (the block as `ListChildren` and `ListLockers` pass it),
with `count = len(l)`, returns `l` unchanged and a nil error; applied to the
encoding with its trailing zero byte, the last field comes back with that zero
byte appended. -/
theorem splitDataN_joined (l : List Str) (hne : l ≠ []) (hz : ∀ f ∈ l, (0 : Byte) ∉ f) :
    splitDataN (joinFields l) l.length = (l, none) ∧
      splitDataN (encodeFields l) l.length
        = (l.dropLast ++ [l.getLast hne ++ [0]], none) := by
  constructor
  · unfold splitDataN
    rw [bytesSplitN_joinFields l hne hz]
  · have hlen := length_joinFields l
    have hpos : 0 < l.length := List.length_pos.mpr hne
    have hlen2 : (l.dropLast ++ [l.getLast hne ++ [0]]).length = l.length := by
      simp only [List.length_append, List.length_dropLast, List.length_singleton]
      omega
    unfold splitDataN bytesSplitN
    have h0 : ¬ ((l.length : Int) = 0) := by omega
    have h1 : ¬ ((l.length : Int) < 0) := by omega
    have h2 : ¬ ((l.length : Int) > ((encodeFields l).length : Int) + 1) := by
      simp only [encodeFields, List.length_append, List.length_singleton]
      omega
    simp only [if_neg h0, if_neg h1, if_neg h2]
    rw [encodeFields_eq_join l hne]
    congr 1
    apply splitLoop_joinFields _ _ (by simp)
    · intro f hf
      rw [List.dropLast_concat] at hf
      exact hz f (List.dropLast_subset l hf)
    · left
      rw [hlen2]
      omega

theorem splitDataN_joined_witness :
    ([[97], [], [98], [97]] : List Str) ≠ [] ∧
      (∀ f ∈ ([[97], [], [98], [97]] : List Str), (0 : Byte) ∉ f) ∧
      splitDataN [97, 0, 0, 98, 0, 97] 4 = ([[97], [], [98], [97]], none) :=
  ⟨by decide, by decide,
    (splitDataN_joined [[97], [], [98], [97]] (by decide) (by decide)).1⟩

/-- Claim C13: for one or more non-empty names without the zero byte,
`splitData` applied to the block `name1 0 ... nameK 0` returns exactly the
names, in order, with a nil error; and `Rbd.List` returns them when, after
insufficient-capacity answers (fewer than `maxRetry`), the list primitive
succeeds with that block in the buffer. -/
theorem splitData_returns_names (l : List Str) (hne : l ≠ [])
    (hn : ∀ f ∈ l, f ≠ [] ∧ (0 : Byte) ∉ f)
    (pre : List ListAnswer) (a : ListAnswer) (rest : Nat → ListAnswer)
    (hpre : ∀ x ∈ pre, x.ret = -ERANGE ∧ 0 < x.size) (hlen : pre.length < 10)
    (ha : 0 ≤ a.ret) (hblock : fillBuf (lastSize pre 1) a.data = encodeFields l) :
    splitData (encodeFields l) = .ret (l, none) ∧
      (RbdList (answersThen (pre ++ [a]) rest)).out = .ret (l, none) := by
  refine ⟨splitData_encodeFields l hne hn, ?_⟩
  unfold RbdList
  rw [listLoop_erange_then a rest ha pre 10 1 1 hpre (by decide) hlen, hblock]
  exact splitData_encodeFields l hne hn

theorem splitData_returns_names_witness :
    splitData [97, 0, 98, 99, 0] = .ret ([[97], [98, 99]], none) ∧
      (RbdList (answersThen ([⟨-ERANGE, 5, []⟩] ++ [⟨5, 5, [97, 0, 98, 99, 0]⟩])
        (fun _ => ⟨-ERANGE, 5, []⟩))).out = .ret ([[97], [98, 99]], none) :=
  splitData_returns_names [[97], [98, 99]] (by decide) (by decide)
    [⟨-ERANGE, 5, []⟩] ⟨5, 5, [97, 0, 98, 99, 0]⟩ (fun _ => ⟨-ERANGE, 5, []⟩)
    (by decide) (by decide) (by decide) (by decide)

/-- Claim C14: `splitData` should return the empty list for the empty block and
for the block of one terminator byte.  For one terminator byte (the encoding
of the list holding the empty string) it does; for the empty block the slice
`data[:len(data)-1]` of line 184 faults. -/
theorem splitData_empty_block_faults :
    splitData [] = .fault ∧ splitData [0] = .ret ([], none) ∧
      splitData (encodeFields [[]]) = .ret ([], none) := by
  decide

/-! ## The claims on the negotiated queries -/

/-- Claim C15, as stated, fails: with count 2, a pools block `a 0` of one field
and an images block `x 0 y 0` of two (buffers of 2 and 4 bytes after one
insufficient-capacity answer), `ListChildren` returns the one entry
`{a: x}` and a nil error; with a clients block of one field and cookies and
addresses blocks of two, `ListLockers` returns one holder and a nil error.
Neither compares a decoded length with the count. -/
theorem list_rows_length_unchecked :
    (ListChildren 2 (answersThen [⟨-ERANGE, 2, 4, [], []⟩]
        (fun _ => ⟨2, 2, 4, [97, 0], [120, 0, 121, 0]⟩)) "img").out
        = .ret ([([97], [120])], none) ∧
      (ListLockers 2 (answersThen [⟨-ERANGE, 0, ⟨2, 2, 4, 4⟩, [], [], [], []⟩]
        (fun _ => ⟨2, 0, ⟨2, 2, 4, 4⟩, [116, 0], [97, 0], [120, 0, 121, 0],
          [112, 0, 113, 0]⟩)) "img").out
        = .ret (⟨[116], false, [[[97], [120], [112]]]⟩, none) := by
  decide

/-- Claim C15, amended: `ListChildren` and `ListLockers` make no check of the
decoded lengths.  After a successful negotiated call with a count other than 0
whose first block (pools, clients) decodes to no more fields than the other
blocks, they return a nil error and one entry per field of the first block,
paired by position with the fields of the other blocks. -/
theorem list_rows_follow_first_block (fuel : Nat) (name : String)
    (cpre : List ChildrenAnswer) (ca : ChildrenAnswer) (crest : Nat → ChildrenAnswer)
    (lpre : List LockersAnswer) (la : LockersAnswer) (lrest : Nat → LockersAnswer)
    (ps is tg cl ck ad : List Byte)
    (hcpre : ∀ x ∈ cpre, x.ret = -ERANGE ∧ 0 < x.poolsSize ∧ 0 < x.imagesSize)
    (hlpre : ∀ x ∈ lpre, x.ret = -ERANGE ∧ 0 < x.sizes.tag ∧ 0 < x.sizes.clients ∧
      0 < x.sizes.cookies ∧ 0 < x.sizes.addrs)
    (hcfuel : cpre.length < fuel) (hlfuel : lpre.length < fuel)
    (hca : 0 < ca.ret) (hla : 0 < la.ret)
    (hps : sliceTo (fillBuf (lastChildSizes cpre (512, 512)).1 ca.pools)
      ((ca.poolsSize : Int) - 1) = .ret ps)
    (his : sliceTo (fillBuf (lastChildSizes cpre (512, 512)).2 ca.images)
      ((ca.imagesSize : Int) - 1) = .ret is)
    (hcl : sliceTo (fillBuf (lastLockSizes lpre ⟨512, 512, 512, 512⟩).clients la.clients)
      ((la.sizes.clients : Int) - 1) = .ret cl)
    (hck : sliceTo (fillBuf (lastLockSizes lpre ⟨512, 512, 512, 512⟩).cookies la.cookies)
      ((la.sizes.cookies : Int) - 1) = .ret ck)
    (had : sliceTo (fillBuf (lastLockSizes lpre ⟨512, 512, 512, 512⟩).addrs la.addrs)
      ((la.sizes.addrs : Int) - 1) = .ret ad)
    (htg : sliceTo (fillBuf (lastLockSizes lpre ⟨512, 512, 512, 512⟩).tag la.tag)
      ((la.sizes.tag : Int) - 1) = .ret tg)
    (hpi : (splitDataN ps ca.ret).1.length ≤ (splitDataN is ca.ret).1.length)
    (hlk : (splitDataN cl la.ret).1.length ≤ (splitDataN ck la.ret).1.length)
    (hla2 : (splitDataN cl la.ret).1.length ≤ (splitDataN ad la.ret).1.length) :
    (ListChildren fuel (answersThen (cpre ++ [ca]) crest) name).out
        = .ret ((splitDataN ps ca.ret).1.zip (splitDataN is ca.ret).1, none) ∧
      (ListLockers fuel (answersThen (lpre ++ [la]) lrest) name).out
        = .ret (⟨tg, decide (la.exclusive = 1),
            List.zipWith3 (fun c k a => [c, k, a]) (splitDataN cl la.ret).1
              (splitDataN ck la.ret).1 (splitDataN ad la.ret).1⟩, none) := by
  constructor
  · unfold ListChildren
    rw [listChildrenLoop_erange_then name ca crest (le_of_lt hca) cpre fuel 512 512 hcpre
      (by decide) (by decide) hcfuel]
    unfold childrenAfterLoop
    rw [if_neg (by omega), hps, his]
    simp only
    rw [childRows_zip _ _ 0 (by simpa using hpi), ended_map_ret, List.drop_zero]
  · unfold ListLockers
    rw [listLockersLoop_erange_then name la lrest (le_of_lt hla) lpre fuel ⟨512, 512, 512, 512⟩
      hlpre (by decide) (by decide) (by decide) (by decide) hlfuel]
    unfold lockersAfterLoop
    rw [if_neg (by omega), hcl, hck, had, htg]
    simp only
    rw [lockerRows_zip _ _ _ 0 (by simpa using hlk) (by simpa using hla2), ended_map_ret,
      List.drop_zero, List.drop_zero]

theorem list_rows_follow_first_block_witness :
    (ListChildren 2 (answersThen ([⟨-ERANGE, 2, 4, [], []⟩] ++
        [⟨2, 2, 4, [97, 0], [120, 0, 121, 0]⟩]) (fun _ => ⟨0, 1, 1, [], []⟩)) "img").out
        = .ret ([([97], [120])], none) ∧
      (ListLockers 2 (answersThen ([⟨-ERANGE, 0, ⟨2, 2, 4, 4⟩, [], [], [], []⟩] ++
        [⟨2, 1, ⟨2, 2, 4, 4⟩, [116, 0], [97, 0], [120, 0, 121, 0], [112, 0, 113, 0]⟩])
        (fun _ => ⟨0, 0, ⟨1, 1, 1, 1⟩, [], [], [], []⟩)) "img").out
        = .ret (⟨[116], true, [[[97], [120], [112]]]⟩, none) :=
  list_rows_follow_first_block 2 "img"
    [⟨-ERANGE, 2, 4, [], []⟩] ⟨2, 2, 4, [97, 0], [120, 0, 121, 0]⟩ (fun _ => ⟨0, 1, 1, [], []⟩)
    [⟨-ERANGE, 0, ⟨2, 2, 4, 4⟩, [], [], [], []⟩]
    ⟨2, 1, ⟨2, 2, 4, 4⟩, [116, 0], [97, 0], [120, 0, 121, 0], [112, 0, 113, 0]⟩
    (fun _ => ⟨0, 0, ⟨1, 1, 1, 1⟩, [], [], [], []⟩)
    [97] [120, 0, 121] [116] [97] [120, 0, 121] [112, 0, 113]
    (by decide) (by decide) (by decide) (by decide) (by decide) (by decide)
    (by decide) (by decide) (by decide) (by decide) (by decide) (by decide)
    (by decide) (by decide) (by decide)

theorem splitDataN_eq (data : List Byte) (count : Int) :
    (splitDataN data count).1 = bytesSplitN data 0 count := rfl

/-- Claim C16: when the lock query succeeds with count `c >= 0` and the client,
cookie and address blocks are each the encoding of `c` fields without the zero
byte, with the sizes of these encodings, `ListLockers` returns a nil error and
exactly `c` holders, the i-th being `[client_i, cookie_i, address_i]` in
primitive order; for `c > 0` the result holds the tag without its terminator
and the exclusive flag (`exclusive == 1`), and for `c = 0` the holder list is
empty and no error is returned. -/
theorem list_lockers_decodes (fuel : Nat) (name : String)
    (pre : List LockersAnswer) (a : LockersAnswer) (rest : Nat → LockersAnswer)
    (cl ck ad : List Str) (tg : Str)
    (hpre : ∀ x ∈ pre, x.ret = -ERANGE ∧ 0 < x.sizes.tag ∧ 0 < x.sizes.clients ∧
      0 < x.sizes.cookies ∧ 0 < x.sizes.addrs)
    (hfuel : pre.length < fuel)
    (hret : a.ret = cl.length) (hckl : ck.length = cl.length) (hadl : ad.length = cl.length)
    (hzc : ∀ f ∈ cl, (0 : Byte) ∉ f) (hzk : ∀ f ∈ ck, (0 : Byte) ∉ f)
    (hza : ∀ f ∈ ad, (0 : Byte) ∉ f)
    (hcl : a.clients = encodeFields cl) (hcls : a.sizes.clients = (encodeFields cl).length)
    (hclf : a.sizes.clients ≤ (lastLockSizes pre ⟨512, 512, 512, 512⟩).clients)
    (hck : a.cookies = encodeFields ck) (hcks : a.sizes.cookies = (encodeFields ck).length)
    (hckf : a.sizes.cookies ≤ (lastLockSizes pre ⟨512, 512, 512, 512⟩).cookies)
    (had : a.addrs = encodeFields ad) (hads : a.sizes.addrs = (encodeFields ad).length)
    (hadf : a.sizes.addrs ≤ (lastLockSizes pre ⟨512, 512, 512, 512⟩).addrs)
    (htg : a.tag = tg ++ [0]) (htgs : a.sizes.tag = (tg ++ [0]).length)
    (htgf : a.sizes.tag ≤ (lastLockSizes pre ⟨512, 512, 512, 512⟩).tag) :
    ∃ L : Locker, (ListLockers fuel (answersThen (pre ++ [a]) rest) name).out = .ret (L, none) ∧
      L.lockers = List.zipWith3 (fun c k d => [c, k, d]) cl ck ad ∧
      L.lockers.length = cl.length ∧
      (cl ≠ [] → L.tag = tg ∧ L.exclusive = decide (a.exclusive = 1)) := by
  have hlen3 : (List.zipWith3 (fun c k d => [c, k, d]) cl ck ad).length = cl.length := by
    clear hzc hzk hza hcl hcls hclf hck hcks hckf had hads hadf hret
    induction cl generalizing ck ad with
    | nil => simp [List.zipWith3]
    | cons c cl ih =>
      cases ck with
      | nil => simp at hckl
      | cons k ck =>
        cases ad with
        | nil => simp at hadl
        | cons d ad =>
          simp only [List.zipWith3, List.length_cons]
          rw [ih ck ad (by simpa using hckl) (by simpa using hadl)]
  unfold ListLockers
  rw [listLockersLoop_erange_then name a rest (by rw [hret]; omega) pre fuel
    ⟨512, 512, 512, 512⟩ hpre (by decide) (by decide) (by decide) (by decide) hfuel]
  unfold lockersAfterLoop
  by_cases hc : cl = []
  · subst hc
    have hck0 : ck = [] := List.length_eq_zero.mp (by simpa using hckl)
    have had0 : ad = [] := List.length_eq_zero.mp (by simpa using hadl)
    subst hck0 had0
    rw [if_pos (by simpa using hret)]
    exact ⟨⟨[], false, []⟩, rfl, rfl, rfl, fun h => absurd rfl h⟩
  · have hkne : ck ≠ [] := fun h => hc (List.length_eq_zero.mp (by rw [← hckl, h]; rfl))
    have hane : ad ≠ [] := fun h => hc (List.length_eq_zero.mp (by rw [← hadl, h]; rfl))
    have hpos : 0 < cl.length := List.length_pos.mpr hc
    rw [if_neg (by rw [hret]; omega)]
    have e1 : sliceTo (fillBuf (lastLockSizes pre ⟨512, 512, 512, 512⟩).clients a.clients)
        ((a.sizes.clients : Int) - 1) = .ret (joinFields cl) := by
      rw [hcl, hcls]
      exact sliceTo_fillBuf _ (joinFields cl) (by
        rw [hcls] at hclf
        simpa [encodeFields] using hclf)
    have e2 : sliceTo (fillBuf (lastLockSizes pre ⟨512, 512, 512, 512⟩).cookies a.cookies)
        ((a.sizes.cookies : Int) - 1) = .ret (joinFields ck) := by
      rw [hck, hcks]
      exact sliceTo_fillBuf _ (joinFields ck) (by
        rw [hcks] at hckf
        simpa [encodeFields] using hckf)
    have e3 : sliceTo (fillBuf (lastLockSizes pre ⟨512, 512, 512, 512⟩).addrs a.addrs)
        ((a.sizes.addrs : Int) - 1) = .ret (joinFields ad) := by
      rw [had, hads]
      exact sliceTo_fillBuf _ (joinFields ad) (by
        rw [hads] at hadf
        simpa [encodeFields] using hadf)
    have e4 : sliceTo (fillBuf (lastLockSizes pre ⟨512, 512, 512, 512⟩).tag a.tag)
        ((a.sizes.tag : Int) - 1) = .ret tg := by
      rw [htg, htgs]
      exact sliceTo_fillBuf _ tg (by
        rw [htgs] at htgf
        simpa using htgf)
    rw [e1, e2, e3, e4]
    simp only
    have d1 : (splitDataN (joinFields cl) a.ret).1 = cl := by
      rw [hret, splitDataN_eq]
      exact bytesSplitN_joinFields cl hc hzc
    have d2 : (splitDataN (joinFields ck) a.ret).1 = ck := by
      rw [hret, ← hckl, splitDataN_eq]
      exact bytesSplitN_joinFields ck hkne hzk
    have d3 : (splitDataN (joinFields ad) a.ret).1 = ad := by
      rw [hret, ← hadl, splitDataN_eq]
      exact bytesSplitN_joinFields ad hane hza
    rw [d1, d2, d3, lockerRows_zip ck ad cl 0 (by omega) (by omega), ended_map_ret,
      List.drop_zero, List.drop_zero]
    exact ⟨_, rfl, rfl, hlen3, fun _ => ⟨rfl, rfl⟩⟩

theorem list_lockers_decodes_witness :
    (ListLockers 2 (answersThen ([⟨-ERANGE, 0, ⟨2, 4, 4, 4⟩, [], [], [], []⟩] ++
        [⟨2, 0, ⟨2, 4, 4, 4⟩, [116, 0], [97, 0, 98, 0], [120, 0, 121, 0], [112, 0, 113, 0]⟩])
        (fun _ => ⟨0, 0, ⟨1, 1, 1, 1⟩, [], [], [], []⟩)) "img").out
      = .ret (⟨[116], false, [[[97], [120], [112]], [[98], [121], [113]]]⟩, none) := by
  obtain ⟨L, h1, h2, _, h4⟩ := list_lockers_decodes 2 "img"
    [⟨-ERANGE, 0, ⟨2, 4, 4, 4⟩, [], [], [], []⟩]
    ⟨2, 0, ⟨2, 4, 4, 4⟩, [116, 0], [97, 0, 98, 0], [120, 0, 121, 0], [112, 0, 113, 0]⟩
    (fun _ => ⟨0, 0, ⟨1, 1, 1, 1⟩, [], [], [], []⟩)
    [[97], [98]] [[120], [121]] [[112], [113]] [116]
    (by decide) (by decide) (by decide) (by decide) (by decide) (by decide) (by decide)
    (by decide) (by decide) (by decide) (by decide) (by decide) (by decide) (by decide)
    (by decide) (by decide) (by decide) (by decide) (by decide) (by decide)
  rw [h1]
  obtain ⟨t, e, r⟩ := L
  simp only at h2 h4
  obtain ⟨h5, h6⟩ := h4 (by decide)
  rw [h2, h5, h6]
  rfl

/-- Claim C17: whatever the primitive answers, the capacities `ParentInfo`
tries are 8, 16, 32, ... (each double the one before), none is above 4096 and
there are at most 10 attempts; with `-ERANGE` on every attempt it makes the 10
attempts up to 4096 and fails; an answer other than `-ERANGE` ends the loop at
once, with success for 0 and with a failure carrying the code otherwise. -/
theorem parent_info_negotiation (raw : Nat → ParentAnswer) (name : String) :
    (∃ m, m ≤ 10 ∧ (ParentInfo raw name).calls = (List.range m).map (fun i => 8 * 2 ^ i)) ∧
      (∀ c ∈ (ParentInfo raw name).calls, c ≤ 4096) ∧
      ((∀ j < 10, (raw j).ret = -ERANGE) →
        (ParentInfo raw name).calls = [8, 16, 32, 64, 128, 256, 512, 1024, 2048, 4096] ∧
        (ParentInfo raw name).out
          = .ret (none, some (.cError ⟨"Cannot get parent info for images %s", [.str name]⟩ 0
              (-ERANGE)))) ∧
      (∀ k < 10, (∀ j < k, (raw j).ret = -ERANGE) → (raw k).ret ≠ -ERANGE →
        (ParentInfo raw name).calls = (List.range (k + 1)).map (fun i => 8 * 2 ^ i) ∧
        ((raw k).ret = 0 →
          (ParentInfo raw name).out
            = .ret (some ⟨fillBuf (8 * 2 ^ k) (raw k).pool, fillBuf (8 * 2 ^ k) (raw k).name,
                fillBuf (8 * 2 ^ k) (raw k).snapName⟩, none)) ∧
        ((raw k).ret ≠ 0 →
          (ParentInfo raw name).out
            = .ret (none, some (.cError ⟨"Cannot get parent info for images %s", [.str name]⟩ 0
                (raw k).ret)))) := by
  obtain ⟨m, hm, _, hb⟩ := parentInfoLoop_calls name 10 raw ⟨8, -ERANGE, [], [], []⟩ (by decide)
  simp only at hm hb
  have hm10 : m ≤ 10 := by
    by_contra hcon
    have := hb 10 (by omega)
    norm_num at this
  refine ⟨⟨m, hm10, hm⟩, ?_, ?_, ?_⟩
  · intro c hc
    unfold ParentInfo at hc
    rw [hm, List.mem_map] at hc
    obtain ⟨i, hi, rfl⟩ := hc
    exact hb i (List.mem_range.mp hi)
  · intro hall
    have := parentInfoLoop_erange_to_cap name 10 10 raw ⟨8, -ERANGE, [], [], []⟩ rfl
      (by decide) (by decide) (by decide) hall (le_refl _)
    exact ⟨by unfold ParentInfo; rw [this.2]; rfl, this.1⟩
  · intro k hk hpre hne
    have hpow : 8 * 2 ^ k ≤ 4096 := by
      have : 2 ^ k ≤ 2 ^ 9 := Nat.pow_le_pow_right (by decide) (by omega)
      omega
    have := parentInfoLoop_erange_then name k 10 raw ⟨8, -ERANGE, [], [], []⟩ rfl (by decide)
      hpow hpre hne hk
    simp only at this
    refine ⟨this.2, fun h0 => ?_, fun h0 => ?_⟩
    · unfold ParentInfo
      rw [this.1]
      simp [parentAfterLoop, h0]
    · unfold ParentInfo
      rw [this.1, parentAfterLoop_failure name _ h0]

/-- Claim C18: every size-negotiated query should return after a bounded
number of raw calls.  `Rbd.List` and `ParentInfo` stop after 10, but the loops
of `ListChildren` and `ListLockers` (lines 459-473 and 500-522) have no bound:
with `-ERANGE` on every call, after any number `fuel` of raw calls they have
issued `fuel` raw calls and have not returned. -/
theorem list_children_lockers_unbounded (fuel : Nat) :
    (ListChildren fuel (fun _ => ⟨-ERANGE, 1024, 1024, [], []⟩) "img").out = .outOfFuel ∧
      (ListChildren fuel (fun _ => ⟨-ERANGE, 1024, 1024, [], []⟩) "img").calls.length = fuel ∧
      (ListLockers fuel (fun _ => ⟨-ERANGE, 0, ⟨1024, 1024, 1024, 1024⟩, [], [], [], []⟩)
        "img").out = .outOfFuel ∧
      (ListLockers fuel (fun _ => ⟨-ERANGE, 0, ⟨1024, 1024, 1024, 1024⟩, [], [], [], []⟩)
        "img").calls.length = fuel := by
  have h1 := listChildrenLoop_erange_forever "img" ⟨-ERANGE, 1024, 1024, [], []⟩ rfl
    (by decide) (by decide) fuel 512 512 (by decide) (by decide)
  have h2 := listLockersLoop_erange_forever "img"
    ⟨-ERANGE, 0, ⟨1024, 1024, 1024, 1024⟩, [], [], [], []⟩ rfl (by decide) (by decide)
    (by decide) (by decide) fuel ⟨512, 512, 512, 512⟩ (by decide) (by decide) (by decide)
    (by decide)
  exact ⟨h1.1, h1.2, h2.1, h2.2⟩

/-! ## The claims on `DiffIterate` and on the lock calls -/

/-- Claim C19, as stated, fails: for an extent at offset `2^63` the handler is
invoked with the offset `-2^63` (`int(offset)` at line 611), and the value
`2^32` it returns is handed back to the primitive as 0 (`C.int(...)`). -/
theorem diff_callback_wraps :
    (DiffIterate [⟨9223372036854775808, 1, 1⟩] (fun r => decide (r < 0)) (fun _ => 0)
        "snap_001" (fun _ _ _ (_ : Nat) (_ : Unit) => (4294967296, ())) 7 ()).invocations
      = [⟨⟨9223372036854775808, 1, 1⟩, -9223372036854775808, 1, 1, 7, 4294967296, 0⟩] := by
  decide

/-- Claim C19, amended: during one `DiffIterate` call, for every extent the
scan primitive reports, the handler is invoked exactly once, in the order the
primitive reports them, with the caller's context value unchanged and with
that extent's offset, length and exists flag when offset and length are below
`2^63`; the value the handler returns is the value handed back to the
primitive when it lies in the 32-bit signed range.  (Outside these ranges the
conversions `int(...)` and `C.int(...)` wrap the values.) -/
theorem diff_iterate_forwards {δ σ : Type} (extents : List Extent) (stop : Int → Bool)
    (status : List Int → Int) (fromSnapshot : String) (f : DiffHandler δ σ) (d : δ) (s : σ)
    (hext : ∀ e ∈ extents, (e.offset : Int) < 2 ^ 63 ∧ (e.length : Int) < 2 ^ 63)
    (hret : ∀ o l e m, -(2 ^ 31) ≤ (f o l e d m).1 ∧ (f o l e d m).1 < 2 ^ 31) :
    ((DiffIterate extents stop status fromSnapshot f d s).invocations.map
        (fun i => i.extent)) <+: extents ∧
      ((∀ r, stop r = false) →
        (DiffIterate extents stop status fromSnapshot f d s).invocations.map
          (fun i => i.extent) = extents) ∧
      ∀ i ∈ (DiffIterate extents stop status fromSnapshot f d s).invocations,
        i.offset = i.extent.offset ∧ i.length = i.extent.length ∧
          i.exist = i.extent.exist ∧ i.d = d ∧ i.back = i.handlerRet := by
  rw [diffIterate_invocations]
  obtain ⟨h1, h2⟩ := diffScan_extents stop f d extents s
  refine ⟨h1, h2, ?_⟩
  intro i hi
  obtain ⟨hmem, ho, hl, he, hd, hb, m, hm⟩ := diffScan_records stop f d extents s i hi
  obtain ⟨hox, hlx⟩ := hext i.extent hmem
  have hr := hret i.offset i.length i.exist m
  rw [← hm] at hr
  refine ⟨?_, ?_, he, hd, ?_⟩
  · rw [ho, toInt64_of_lt _ hox]
  · rw [hl, toInt64_of_lt _ hlx]
  · rw [hb, toCInt_of_range _ hr.1 hr.2]

theorem diff_iterate_forwards_witness :
    (DiffIterate [⟨0, 1, 1⟩, ⟨5, 2, 1⟩, ⟨12, 1, 1⟩] (fun r => decide (r < 0)) (fun _ => 0)
        "snap_001" (fun o l e (_ : Nat) (m : List (Int × Int × Int)) => (0, m ++ [(o, l, e)]))
        7 []).invocations.map (fun i => i.extent)
      = [⟨0, 1, 1⟩, ⟨5, 2, 1⟩, ⟨12, 1, 1⟩] :=
  (diff_iterate_forwards [⟨0, 1, 1⟩, ⟨5, 2, 1⟩, ⟨12, 1, 1⟩] (fun r => decide (r < 0))
    (fun _ => 0) "snap_001"
    (fun o l e (_ : Nat) (m : List (Int × Int × Int)) => (0, m ++ [(o, l, e)])) 7 []
    (by decide) (fun _ _ _ _ => by simp)).1.eq_of_length (by decide)

/-- Claim C20: once `LockExclusive(cookie)` has succeeded on a volume, every
later `LockExclusive` or `LockShared` call on the volume, by any session,
fails with the lock-conflict error (a `cError` carrying `-EBUSY`), as long as
no `Unlock` or `BreakLock` has succeeded in between. -/
theorem lock_exclusive_excludes (name : String) (me cookie : Str) (s : LockState)
    (pre : List LockCall) (c : LockCall)
    (h : (LockExclusive name me cookie s).1 = none)
    (hkeep : noRemoval name pre (LockExclusive name me cookie s).2)
    (hc : c.acquires = true) :
    ∃ format, (c.perform name (stateAfter name pre (LockExclusive name me cookie s).2)).1
      = some (.cError ⟨format, [.str name]⟩ 0 (-EBUSY)) := by
  rw [lockExclusive_success name me cookie s h] at hkeep ⊢
  rw [stateAfter_exclusive name me cookie pre hkeep]
  exact (acquire_on_exclusive name me cookie c hc).1

theorem lock_exclusive_excludes_witness :
    (LockExclusive "img" [1] [7] .unlocked).1 = none ∧
      noRemoval "img" [.lockShared [2] [8] [9], .unlock [2] [8], .breakLock [1] [8]]
        (LockExclusive "img" [1] [7] .unlocked).2 ∧
      ∃ format, ((LockCall.lockExclusive [2] [8]).perform "img"
        (stateAfter "img" [.lockShared [2] [8] [9], .unlock [2] [8], .breakLock [1] [8]]
          (LockExclusive "img" [1] [7] .unlocked).2)).1
        = some (.cError ⟨format, [.str "img"]⟩ 0 (-EBUSY)) :=
  ⟨by decide, by simp [noRemoval, LockCall.acquires, LockCall.perform, LockExclusive, LockShared,
      Unlock, BreakLock, lockResult, rbd_lock_exclusive, rbd_lock_shared, rbd_unlock,
      rbd_break_lock, removeHolder, EBUSY, ENOENT],
    lock_exclusive_excludes "img" [1] [7] .unlocked
      [.lockShared [2] [8] [9], .unlock [2] [8], .breakLock [1] [8]] (.lockExclusive [2] [8])
      (by decide)
      (by simp [noRemoval, LockCall.acquires, LockCall.perform, LockExclusive, LockShared,
        Unlock, BreakLock, lockResult, rbd_lock_exclusive, rbd_lock_shared, rbd_unlock,
        rbd_break_lock, removeHolder, EBUSY, ENOENT])
      (by decide)⟩

/-! ## Lemmas on blocks of terminators and on `Create` -/

theorem joinFields_replicate_nil (k : Nat) :
    joinFields (List.replicate (k + 1) ([] : Str)) = List.replicate k 0 := by
  induction k with
  | zero => rfl
  | succ k ih =>
    rw [List.replicate_succ, List.replicate_succ, joinFields_cons_cons, ← List.replicate_succ, ih]
    rfl

/-- The configuration after the options: the flag is set when `OldFormat()` is
among them, the features are the masks OR-ed from the left, and the order and
the striping are untouched. -/
theorem options_fold (opts : List OptionName) :
    ∀ (c : Config),
      ((opts.map OptionName.option).foldl (fun c option => option c) c).oldFormat
          = (c.oldFormat || decide (OptionName.oldFormat ∈ opts)) ∧
        ((opts.map OptionName.option).foldl (fun c option => option c) c).features
          = opts.foldl (fun m o => m ||| o.mask) c.features ∧
        ((opts.map OptionName.option).foldl (fun c option => option c) c).orderC = c.orderC ∧
        ((opts.map OptionName.option).foldl (fun c option => option c) c).stripeUnit
          = c.stripeUnit ∧
        ((opts.map OptionName.option).foldl (fun c option => option c) c).stripeCount
          = c.stripeCount := by
  induction opts with
  | nil => intro c; simp
  | cons o opts ih =>
    intro c
    simp only [List.map_cons, List.foldl_cons]
    obtain ⟨h1, h2, h3, h4, h5⟩ := ih (o.option c)
    rw [h1, h2, h3, h4, h5]
    cases o <;>
      simp [OptionName.option, OptionName.mask, OldFormat, Layering, Stripingv2,
        Config.setOldFormat, Config.setFeature]

/-- The masks OR-ed from the left, starting below 4, depend only on which
feature options are present. -/
theorem features_fold (opts : List OptionName) :
    ∀ (m : Nat), m < 4 →
      opts.foldl (fun m o => m ||| o.mask) m
        = (m ||| (if OptionName.layering ∈ opts then 1 else 0))
            ||| (if OptionName.stripingv2 ∈ opts then 2 else 0) := by
  induction opts with
  | nil => intro m _; simp
  | cons o opts ih =>
    intro m hm
    have hlt : m ||| o.mask < 4 := by
      interval_cases m <;> cases o <;> decide
    simp only [List.foldl_cons]
    rw [ih _ hlt]
    by_cases hl : OptionName.layering ∈ opts <;> by_cases hs : OptionName.stripingv2 ∈ opts <;>
      interval_cases m <;> cases o <;>
      simp [hl, hs, OptionName.mask, RBD_FEATURE_LAYERING, RBD_FEATURE_STRIPINGV2]

theorem requestedFeatures_eq (opts : List OptionName) :
    requestedFeatures opts
      = (if OptionName.layering ∈ opts then 1 else 0)
          ||| (if OptionName.stripingv2 ∈ opts then 2 else 0) := by
  unfold requestedFeatures
  rw [features_fold opts 0 (by decide), Nat.zero_or]

theorem requestedFeatures_ne_zero (opts : List OptionName) :
    requestedFeatures opts ≠ 0 ↔ (OptionName.layering ∈ opts ∨ OptionName.stripingv2 ∈ opts) := by
  rw [requestedFeatures_eq]
  by_cases hl : OptionName.layering ∈ opts <;> by_cases hs : OptionName.stripingv2 ∈ opts <;>
    simp [hl, hs]

/-- `Create` in terms of the options present: the guard of line 107, the
format-1 primitive, or the format-2 primitive with the requested features. -/
theorem create_by_options (prim : CreateCall → Int) (poolName name : String) (size : Nat)
    (opts : List OptionName) :
    Create prim poolName name size (opts.map OptionName.option)
      = if OptionName.oldFormat ∈ opts then
          (if requestedFeatures opts ≠ 0 then
            ⟨some (.errorf
              ⟨"Format image 1 does not support feature, masks or non-default striping", []⟩),
              []⟩
           else createResult prim poolName name (.rbd_create name size 22))
        else
          createResult prim poolName name
            (.rbd_create3 name size (requestedFeatures opts) 22 0 0) := by
  obtain ⟨h1, h2, h3, h4, h5⟩ := options_fold opts ⟨false, 0, 22, 0, 0⟩
  unfold Create
  simp only [h1, h2, h3, h4, h5, Bool.false_or, decide_eq_true_eq, ne_eq, not_true_eq_false,
    or_false]
  rfl

theorem createResult_calls (prim : CreateCall → Int) (poolName name : String)
    (call : CreateCall) : (createResult prim poolName name call).calls = [call] := by
  unfold createResult
  split_ifs <;> rfl

theorem createResult_err (prim : CreateCall → Int) (poolName name : String)
    (call : CreateCall) (m : Msg) :
    (createResult prim poolName name call).err ≠ some (.errorf m) := by
  unfold createResult
  split_ifs <;> simp

/-! ## The claims on blocks of terminators and on `Create` -/

/-- Claim C21: a block of `k` terminator bytes is the encoding of `k` empty
strings; `splitData` returns the empty list for `k = 1` and `k = 2` and a list
of exactly `k` empty strings for `k >= 3`, so the list of two empty strings is
decoded, like the list of one, as the empty list. -/
theorem splitData_terminators (k : Nat) :
    (1 ≤ k → encodeFields (List.replicate k ([] : Str)) = List.replicate k 0) ∧
      (k = 1 ∨ k = 2 → splitData (List.replicate k 0) = .ret ([], none)) ∧
      (3 ≤ k → splitData (List.replicate k 0) = .ret (List.replicate k [], none)) := by
  refine ⟨?_, ?_, ?_⟩
  · intro hk
    obtain ⟨j, rfl⟩ : ∃ j, k = j + 1 := ⟨k - 1, by omega⟩
    unfold encodeFields
    rw [joinFields_replicate_nil, List.replicate_succ']
  · rintro (rfl | rfl) <;> decide
  · intro hk
    obtain ⟨j, rfl⟩ : ∃ j, k = j + 3 := ⟨k - 3, by omega⟩
    have hsplit := bytesSplit_joinFields (List.replicate (j + 3) ([] : Str)) (by simp)
      (by
        intro f hf
        rw [List.eq_of_mem_replicate hf]
        simp)
    rw [joinFields_replicate_nil] at hsplit
    unfold splitData
    simp only [List.length_replicate]
    rw [if_neg (by omega), if_neg (by omega), if_neg (by omega),
      show j + 3 - 1 = j + 2 from by omega, List.take_replicate,
      show min (j + 2) (j + 3) = j + 2 from by omega, hsplit]

/-- Claim C22: `Create` returns the error `Format image 1 does not support
feature, ...`, without calling a create primitive, exactly when the options
include `OldFormat()` together with `Layering()` or `Stripingv2()`, in
whatever order; with `OldFormat()` and no feature option it calls the format-1
primitive `rbd_create`, and without `OldFormat()` it calls the format-2
primitive `rbd_create3` with the bitwise OR of the requested feature masks,
which depends only on which feature options are present. -/
theorem create_format_guard (prim : CreateCall → Int) (poolName name : String) (size : Nat)
    (opts : List OptionName) :
    ((Create prim poolName name size (opts.map OptionName.option)).err
          = some (.errorf
              ⟨"Format image 1 does not support feature, masks or non-default striping", []⟩)
        ↔ (OptionName.oldFormat ∈ opts ∧
            (OptionName.layering ∈ opts ∨ OptionName.stripingv2 ∈ opts))) ∧
      (OptionName.oldFormat ∈ opts ∧
          (OptionName.layering ∈ opts ∨ OptionName.stripingv2 ∈ opts) →
        (Create prim poolName name size (opts.map OptionName.option)).calls = []) ∧
      (OptionName.oldFormat ∈ opts → OptionName.layering ∉ opts →
          OptionName.stripingv2 ∉ opts →
        (Create prim poolName name size (opts.map OptionName.option)).calls
          = [.rbd_create name size 22]) ∧
      (OptionName.oldFormat ∉ opts →
        (Create prim poolName name size (opts.map OptionName.option)).calls
          = [.rbd_create3 name size (requestedFeatures opts) 22 0 0]) ∧
      requestedFeatures opts
        = (if OptionName.layering ∈ opts then RBD_FEATURE_LAYERING else 0)
            ||| (if OptionName.stripingv2 ∈ opts then RBD_FEATURE_STRIPINGV2 else 0) := by
  have hf := requestedFeatures_ne_zero opts
  rw [create_by_options]
  refine ⟨?_, ?_, ?_, ?_, requestedFeatures_eq opts⟩
  · constructor
    · intro h
      by_cases ho : OptionName.oldFormat ∈ opts
      · rw [if_pos ho] at h
        by_cases hr : requestedFeatures opts ≠ 0
        · exact ⟨ho, hf.mp hr⟩
        · rw [if_neg hr] at h
          exact absurd h (createResult_err _ _ _ _ _)
      · rw [if_neg ho] at h
        exact absurd h (createResult_err _ _ _ _ _)
    · rintro ⟨ho, hm⟩
      rw [if_pos ho, if_pos (hf.mpr hm)]
  · rintro ⟨ho, hm⟩
    rw [if_pos ho, if_pos (hf.mpr hm)]
  · intro ho hl hs
    have hr : ¬ requestedFeatures opts ≠ 0 := fun h => (hf.mp h).elim hl hs
    rw [if_pos ho, if_neg hr, createResult_calls]
  · intro ho
    rw [if_neg ho, createResult_calls]

end Rbd
